import Mathlib

/-!
# Verification of the factorio-mod-updater core

Shallow embedding of the pure logic of `internal/factorio/updater.go`
(the current revision of the file): version compatibility matching,
release selection, the dependency-resolution fixed point, artifact
pruning, manifest persistence and download/digest handling.  The
filesystem and the network are modelled explicitly as values; the SHA-1
digest and the JSON marshaller are abstracted as function parameters
(the code only ever compares their outputs for equality).

String primitives (prefix/suffix tests, lexicographic order) are defined
over `List Char` so that every definition evaluates inside the kernel.
-/

namespace FactorioUpdater

/-! ## String helpers over `List Char` -/

def listIsPre : List Char → List Char → Bool
  | [], _ => true
  | _ :: _, [] => false
  | a :: as, b :: bs => a == b && listIsPre as bs

/-- `strings.HasPrefix s pre`. -/
def strStartsWith (s pre : String) : Bool :=
  listIsPre pre.toList s.toList

/-- `strings.HasSuffix s suf`. -/
def strEndsWith (s suf : String) : Bool :=
  listIsPre suf.toList.reverse s.toList.reverse

/-- Byte-wise (equivalently code-point-wise) lexicographic order on
strings, as used by Go's `cmp.Compare` on strings. -/
def listLe : List Char → List Char → Bool
  | [], _ => true
  | _ :: _, [] => false
  | a :: as, b :: bs => if a == b then listLe as bs else decide (a < b)

def strLe (a b : String) : Bool :=
  listLe a.toList b.toList

/-- `\w` in RE2 (ASCII letters, digits, underscore) extended with the
space and hyphen of the `[\w -]` class of `depRe`. -/
def isWordChar (c : Char) : Bool :=
  c.isAlphanum || c == '_' || c == ' ' || c == '-'

/-! ## The version regexp `versionRe`

`versionRe = (?P<major>\d+)\.(?P<minor>\d+)(?:\.(?P<sub>\d+))?`, used by
`versionMatch` through `FindStringSubmatch` (unanchored search, leftmost
match, greedy groups).  `versionAt` attempts a match anchored at the head
of the character list; `findVersionAux` scans the suffixes left to right
for the leftmost match, returning the `(major, minor, sub)` groups, with
`sub = ""` when the optional third group does not participate. -/

def versionAt (cs : List Char) : Option (String × String × String) :=
  let (d1, r1) := cs.span Char.isDigit
  if d1.isEmpty then none else
  match r1 with
  | '.' :: r2 =>
    let (d2, r3) := r2.span Char.isDigit
    if d2.isEmpty then none else
    match r3 with
    | '.' :: r4 =>
      let (d3, _) := r4.span Char.isDigit
      if d3.isEmpty then some (d1.asString, d2.asString, "")
      else some (d1.asString, d2.asString, d3.asString)
    | _ => some (d1.asString, d2.asString, "")
  | _ => none

def findVersionAux : List Char → Option (String × String × String)
  | [] => none
  | c :: cs =>
    match versionAt (c :: cs) with
    | some m => some m
    | none => findVersionAux cs

/-- `versionRe.FindStringSubmatch`: the leftmost occurrence of
`\d+\.\d+(\.\d+)?` in `s`, as its three submatch groups. -/
def findVersion (s : String) : Option (String × String × String) :=
  findVersionAux s.toList

/-- Full (anchored) match of `\d+\.\d+\.\d+`, the version shape used in
`modZipRe`, in `pruneOld`'s per-mod pattern and in `depRe`'s version
group. -/
def isVersionTriple (cs : List Char) : Bool :=
  let (a, r1) := cs.span Char.isDigit
  match r1 with
  | '.' :: r2 =>
    let (b, r3) := r2.span Char.isDigit
    match r3 with
    | '.' :: r4 =>
      let (c, r5) := r4.span Char.isDigit
      !a.isEmpty && !b.isEmpty && !c.isEmpty && r5.isEmpty
    | _ => false
  | _ => false

/-! ## versionMatch -/

/-- `versionMatch(installed, mod)`: is a mod release compatible with the
installed Factorio version, with the legacy 0.18/1.x equivalence. -/
def versionMatch (installed mod : String) : Bool :=
  match findVersion mod, findVersion installed with
  | some (mMaj, mMin, mSub), some (iMaj, iMin, _iSub) =>
    if strStartsWith installed "1." && strStartsWith mod "0.18" then true
    else if !(mSub == "") then mod == installed
    else mMaj == iMaj && mMin == iMin
  | _, _ => false

/-- `isBuiltInMod`: names of the official Factorio core distribution,
never queried on the mod portal. -/
def isBuiltInMod (name : String) : Bool :=
  match name with
  | "base" | "core" | "space-age" | "quality" | "elevated-rails" => true
  | _ => false

/-! ## Claim C1 -/

/-- **C1**: `versionMatch` returns exactly the values the spec lists on the
five sample pairs, and whenever either argument contains no occurrence of
`major.minor[.patch]` (the code's parse, `versionRe`), the result is
`false`. -/
theorem versionMatch_spec_values :
    (versionMatch "2.0.1" "2.0" = true ∧
     versionMatch "2.1.0" "2.0" = false ∧
     versionMatch "1.0.0" "0.18.33" = true ∧
     versionMatch "1.1.0" "0.18.33" = true ∧
     versionMatch "2.0" "invalid" = false) ∧
    ∀ installed mod : String,
      (findVersion installed = none ∨ findVersion mod = none) →
      versionMatch installed mod = false := by
  refine ⟨⟨by decide, by decide, by decide, by decide, by decide⟩, ?_⟩
  intro installed mod h
  rcases h with h | h
  · cases hv : findVersion mod with
    | none => simp [versionMatch, h, hv]
    | some v => simp [versionMatch, h, hv]
  · cases hv : findVersion installed with
    | none => simp [versionMatch, h, hv]
    | some v => simp [versionMatch, h, hv]

/-- Witness for C1: the universally quantified part applied at a concrete
unparsable input. -/
theorem versionMatch_spec_values_witness :
    versionMatch "2.0" "invalid" = false :=
  versionMatch_spec_values.2 "2.0" "invalid" (Or.inr (by decide))

/-! ## Data model (updater.go structs) -/

structure InfoJSON where
  factorioVersion : String
  dependencies : List String
deriving Repr, DecidableEq

structure ModRelease where
  downloadURL : String
  fileName : String
  infoJSON : InfoJSON
  sha1 : String
  version : String
deriving Repr, DecidableEq

structure ModPortalMetadata where
  title : String
  deprecated : Bool
  releases : List ModRelease
deriving Repr, DecidableEq

/-- Tracked state of a single mod.  Field defaults are the Go zero
values, as produced by a composite literal that omits them. -/
structure ModData where
  name : String
  title : String
  enabled : Bool := false
  installed : Bool := false
  version : String := ""
  latest : Option ModRelease := none
  deprecated : Bool := false
deriving Repr, DecidableEq

/-! ## Release selection (`RetrieveModMetadata`, updater.go)

The Go loop walks `meta.Releases` in response order and overwrites
`latest` with every release whose `factorio_version` matches, so the
*last* compatible release wins. -/

def selectLatest (factVersion : String) (releases : List ModRelease) : Option ModRelease :=
  releases.foldl
    (fun latest rel =>
      if versionMatch factVersion rel.infoJSON.factorioVersion then some rel else latest)
    none

/-- Pure part of `RetrieveModMetadata` applied to a successfully decoded
metadata response: record title, deprecated flag and the selected
release. -/
def applyMetadata (factVersion : String) (m : ModData) (meta : ModPortalMetadata) : ModData :=
  { m with
    title := meta.title
    deprecated := meta.deprecated
    latest := selectLatest factVersion meta.releases }

/-- Modelled from the spec: the spec's "parsed version" of a release, a
strict `major.minor.patch` parse into numbers (used only to compare the
spec's intended selection with the implemented one). -/
def specParsedVersion (s : String) : Option (Nat × Nat × Nat) :=
  let digitsToNat (cs : List Char) : Nat :=
    cs.foldl (fun n c => 10 * n + (c.toNat - '0'.toNat)) 0
  let cs := s.toList
  let (a, r1) := cs.span Char.isDigit
  match r1 with
  | '.' :: r2 =>
    let (b, r3) := r2.span Char.isDigit
    match r3 with
    | '.' :: r4 =>
      let (c, r5) := r4.span Char.isDigit
      if !a.isEmpty && !b.isEmpty && !c.isEmpty && r5.isEmpty then
        some (digitsToNat a, digitsToNat b, digitsToNat c)
      else none
    | _ => none
  | _ => none

/-- Modelled from the spec: lexicographic order on parsed versions. -/
def specVersionLt : Nat × Nat × Nat → Nat × Nat × Nat → Bool
  | (a1, b1, c1), (a2, b2, c2) =>
    a1 < a2 || (a1 == a2 && (b1 < b2 || (b1 == b2 && c1 < c2)))

/-! ## Claim C2 -/

/-- **C2 counterexample**: with the installed version `"2.0"` and two
compatible releases arriving highest-first, `selectLatest` (the selection
loop of `RetrieveModMetadata`) picks the *last* one, whose parsed version
is strictly lower, and reversing the response order changes the
selection — refuting both the "highest parsed version" and the
order-independence parts of the claim. -/
theorem selectLatest_not_highest :
    let relA : ModRelease := ModRelease.mk "" "" (InfoJSON.mk "2.0" []) "" "2.0.0"
    let relB : ModRelease := ModRelease.mk "" "" (InfoJSON.mk "2.0" []) "" "1.0.0"
    versionMatch "2.0" relA.infoJSON.factorioVersion = true ∧
    versionMatch "2.0" relB.infoJSON.factorioVersion = true ∧
    specParsedVersion relA.version = some (2, 0, 0) ∧
    specParsedVersion relB.version = some (1, 0, 0) ∧
    specVersionLt (1, 0, 0) (2, 0, 0) = true ∧
    selectLatest "2.0" [relA, relB] = some relB ∧
    selectLatest "2.0" [relB, relA] = some relA := by
  decide

theorem getLast?_cons_or {α : Type} (a : α) (l : List α) :
    (a :: l).getLast? = l.getLast?.or (some a) := by
  cases l with
  | nil => rfl
  | cons b t =>
    rw [List.getLast?_cons_cons]
    have hs : (b :: t).getLast?.isSome := by
      rw [List.getLast?_isSome]
      simp
    exact (Option.or_of_isSome hs).symm

theorem selectLatest_foldl_or (fv : String) (rels : List ModRelease)
    (acc : Option ModRelease) :
    rels.foldl
      (fun latest rel =>
        if versionMatch fv rel.infoJSON.factorioVersion then some rel else latest)
      acc =
    ((rels.filter (fun rel => versionMatch fv rel.infoJSON.factorioVersion)).getLast?).or acc := by
  induction rels generalizing acc with
  | nil => rfl
  | cons r rs ih =>
    by_cases h : versionMatch fv r.infoJSON.factorioVersion = true
    · simp only [List.foldl_cons, List.filter_cons, h, if_true]
      rw [ih, getLast?_cons_or, Option.or_assoc, Option.or_some]
    · have h' : versionMatch fv r.infoJSON.factorioVersion = false := by
        simpa using h
      simp only [List.foldl_cons, List.filter_cons, h', if_false, Bool.false_eq_true]
      rw [ih]

/-- **C2 amended**: `RetrieveModMetadata` sets the item's latest release
to the *last* release in response order whose required platform version
satisfies `versionMatch` against the installed platform version (and to
none when no release is compatible).  At most one release is selected per
item, but the selection depends on the response ordering. -/
theorem selectLatest_eq_last (fv : String) (rels : List ModRelease) :
    selectLatest fv rels =
      (rels.filter (fun rel => versionMatch fv rel.infoJSON.factorioVersion)).getLast? := by
  unfold selectLatest
  rw [selectLatest_foldl_or, Option.or_none]

/-! ## Dependency specs (`depRe` and the skip checks of `ResolveMetadata`) -/

/-- The explicit skip of optional and incompatible dependency specs. -/
def depSkipped (depStr : String) : Bool :=
  strStartsWith depStr "!" || strStartsWith depStr "?" || strStartsWith depStr "(?)"

def isOpStr (s : String) : Bool :=
  s == "<" || s == "<=" || s == ">" || s == ">=" || s == "="

/-- Body of `depRe` after the optional marker:
`(?P<name>[\w -]+)(?: (?P<arg>(?:[<>]=?)|=) (?P<ver>\d+\.\d+\.\d+))?$`.
The operator characters and the dot lie outside the `[\w -]` class, so a
match, when it exists, is unique: either the whole body is the name, or
the body splits at its last two spaces into name, operator and version. -/
def parseDepBody (b : String) : Option String :=
  let cs := b.toList
  if !cs.isEmpty && cs.all isWordChar then some b
  else
    let rcs := cs.reverse
    let (verR, r1) := rcs.span (fun c => !(c == ' '))
    match r1 with
    | ' ' :: r2 =>
      let (opR, r3) := r2.span (fun c => !(c == ' '))
      match r3 with
      | ' ' :: nameR =>
        let name := nameR.reverse
        if !name.isEmpty && name.all isWordChar &&
            isOpStr opR.reverse.asString && isVersionTriple verR.reverse then
          some name.asString
        else none
      | _ => none
    | _ => none

/-- `depRe.FindStringSubmatch(depStr)[1]`: the name group of the anchored
match, `none` when the regexp does not match.  The greedy optional prefix
`(?:[~!?](?:\(\))? )?` is attempted first; when no prefixed alternative
matches, the whole string is the body (which then fails anyway whenever
it starts with a marker character, as markers are outside `[\w -]`). -/
def parseDep (depStr : String) : Option String :=
  let viaMarker : Option String :=
    match depStr.toList with
    | c :: rest =>
      if c == '~' || c == '!' || c == '?' then
        match rest with
        | '(' :: ')' :: ' ' :: body => parseDepBody body.asString
        | ' ' :: body => parseDepBody body.asString
        | _ => none
      else none
    | [] => none
  match viaMarker with
  | some n => some n
  | none => parseDepBody depStr

/-! ## The working set (`u.mods`, a Go map, as an association list) -/

abbrev ModsMap := List (String × ModData)

/-- Go map read `u.mods[n]`. -/
def mapFind (mods : ModsMap) (n : String) : Option ModData :=
  match mods with
  | [] => none
  | e :: es => if e.1 == n then some e.2 else mapFind es n

/-- Go two-valued map read `_, ok := u.mods[n]`. -/
def memMods (mods : ModsMap) (n : String) : Bool :=
  (mapFind mods n).isSome

/-- Go map assignment `u.mods[n] = d`: replace the binding when the key
is present, append it otherwise. -/
def mapInsert (mods : ModsMap) (n : String) (d : ModData) : ModsMap :=
  if memMods mods n then
    mods.map (fun e => if e.1 == n then (n, d) else e)
  else mods ++ [(n, d)]

/-- The modelled registry: what `RetrieveModMetadata`'s HTTP fetch and
JSON decode yield per mod name (an error covers network failure,
non-200 status and malformed bodies alike). -/
abbrev Fetch := String → Except String ModPortalMetadata

/-- `RetrieveModMetadata` for one name: on success the tracked entry is
updated in place, on failure the error is reported and the entry is left
unchanged.  (The Go method reads `u.mods[mod]`, which its callers always
populate beforehand; an absent key is a no-op here.) -/
def retrieveInto (fv : String) (fetch : Fetch) (mods : ModsMap) (n : String) :
    ModsMap × Option String :=
  match fetch n with
  | .error e => (mods, some e)
  | .ok meta =>
    match mapFind mods n with
    | none => (mods, none)
    | some d => (mapInsert mods n (applyMetadata fv d meta), none)

/-- One synchronisation wave of `ResolveMetadata`: fetch the given names
in order, collecting per-item errors without aborting the batch.  (The Go
code dispatches the wave to a bounded worker pool and joins it before
continuing; as each worker owns exactly its item and the error slice is
mutex-guarded, the joined effect is the sequential one modelled here.) -/
def fetchWave (fv : String) (fetch : Fetch) :
    List String → ModsMap × List String → ModsMap × List String
  | [], acc => acc
  | n :: ns, acc =>
    let r := retrieveInto fv fetch acc.1 n
    fetchWave fv fetch ns (r.1, acc.2 ++ r.2.toList)

/-- Names required by a selected release: its dependency specs minus the
optional/incompatible markers, the unparsable specs and the built-in
names. -/
def depNames (rel : ModRelease) : List String :=
  rel.infoJSON.dependencies.filterMap (fun depStr =>
    if depSkipped depStr then none
    else
      match parseDep depStr with
      | some depName => if isBuiltInMod depName then none else some depName
      | none => none)

/-- The missing-dependency set of one wave: required names absent from
the working set (collected into a Go set, hence `dedup`). -/
def missingOf (mods : ModsMap) : List String :=
  (mods.flatMap (fun e =>
    match e.2.latest with
    | some rel => (depNames rel).filter (fun n => !memMods mods n)
    | none => [])).dedup

/-- Insertion of the newly discovered names, `enabled` and not installed. -/
def addMissing : ModsMap → List String → ModsMap
  | mods, [] => mods
  | mods, n :: ns => addMissing (mapInsert mods n { name := n, title := n, enabled := true }) ns

def insertSortedBy {α : Type} (le : α → α → Bool) (x : α) : List α → List α
  | [] => [x]
  | y :: ys => if le x y then x :: y :: ys else y :: insertSortedBy le x ys

/-- Insertion sort with a boolean comparison (`slices.Sort` /
`slices.SortFunc`). -/
def sortBy {α : Type} (le : α → α → Bool) : List α → List α
  | [] => []
  | x :: xs => insertSortedBy le x (sortBy le xs)

/-- One non-empty discovery wave of `ResolveMetadata`: add the (sorted)
missing names and fetch them. -/
def resolveStep (fv : String) (fetch : Fetch) (mods : ModsMap) (errs : List String) :
    ModsMap × List String :=
  let newNames := sortBy strLe (missingOf mods)
  fetchWave fv fetch newNames (addMissing mods newNames, errs)

/-- The discovery loop of `ResolveMetadata`, with explicit fuel: each
iteration computes the missing names; an empty wave ends the loop,
otherwise the missing names are added and fetched in sorted order and the
loop repeats.  `none` means the fuel ran out before the fixed point was
reached (the termination theorem shows enough fuel always exists). -/
def resolveLoop (fv : String) (fetch : Fetch) :
    Nat → ModsMap → List String → Option (ModsMap × List String)
  | 0, mods, errs => if missingOf mods = [] then some (mods, errs) else none
  | fuel + 1, mods, errs =>
    if missingOf mods = [] then some (mods, errs)
    else
      resolveLoop fv fetch fuel (resolveStep fv fetch mods errs).1
        (resolveStep fv fetch mods errs).2

/-- `ResolveMetadata`: fetch every tracked name (sorted dispatch order),
then run the discovery loop; the final working set is returned jointly
with the accumulated per-item errors. -/
def resolveMetadata (fv : String) (fetch : Fetch) (fuel : Nat) (mods : ModsMap) :
    Option (ModsMap × List String) :=
  let names := sortBy strLe (mods.map Prod.fst)
  let r := fetchWave fv fetch names (mods, [])
  resolveLoop fv fetch fuel r.1 r.2

/-! ## Association-list lemmas for the working set -/

theorem memMods_true_iff {mods : ModsMap} {n : String} :
    memMods mods n = true ↔ ∃ d, mapFind mods n = some d := by
  rw [memMods, Option.isSome_iff_exists]

theorem beq_false_of_ne {a b : String} (h : a ≠ b) : (a == b) = false := by
  simp [h]

theorem mapFind_eq_none_of_not_mem {mods : ModsMap} {n : String}
    (h : memMods mods n = false) : mapFind mods n = none := by
  cases hf : mapFind mods n with
  | none => rfl
  | some d =>
    rw [memMods, hf] at h
    simp at h

theorem mem_of_mapFind_some {mods : ModsMap} {n : String} {d : ModData}
    (h : mapFind mods n = some d) : (n, d) ∈ mods := by
  induction mods with
  | nil => simp [mapFind] at h
  | cons e es ih =>
    rw [mapFind] at h
    by_cases h1 : e.1 = n
    · have hb : (e.1 == n) = true := by simp [h1]
      simp only [hb, if_true, Option.some.injEq] at h
      obtain ⟨k, v⟩ := e
      simp only at h1 h
      rw [← h1, ← h]
      exact List.mem_cons_self _ _
    · have hb : (e.1 == n) = false := by simp [h1]
      simp only [hb, Bool.false_eq_true, if_false] at h
      exact List.mem_cons_of_mem _ (ih h)

theorem memMods_true_iff_mem_keys {mods : ModsMap} {n : String} :
    memMods mods n = true ↔ n ∈ mods.map Prod.fst := by
  induction mods with
  | nil => simp [memMods, mapFind]
  | cons e es ih =>
    by_cases h1 : e.1 = n
    · have hb : (e.1 == n) = true := by simp [h1]
      simp [memMods, mapFind, hb, h1]
    · have hb : (e.1 == n) = false := by simp [h1]
      simp only [memMods, mapFind, hb, Bool.false_eq_true, if_false, List.map_cons,
        List.mem_cons]
      rw [← memMods]
      constructor
      · intro hm
        exact Or.inr (ih.mp hm)
      · rintro (hm | hm)
        · exact absurd hm.symm h1
        · exact ih.mpr hm

theorem mapFind_map_replace_self {mods : ModsMap} {n : String} {d : ModData}
    (h : memMods mods n = true) :
    mapFind (mods.map (fun e => if e.1 == n then (n, d) else e)) n = some d := by
  induction mods with
  | nil => simp [memMods, mapFind] at h
  | cons e es ih =>
    by_cases h1 : e.1 = n
    · have hb : (e.1 == n) = true := by simp [h1]
      simp [mapFind, hb]
    · have hb : (e.1 == n) = false := by simp [h1]
      have h2 : memMods es n = true := by
        simpa [memMods, mapFind, hb] using h
      simp only [List.map_cons, hb, Bool.false_eq_true, if_false, mapFind]
      exact ih h2

theorem mapFind_map_replace_ne {mods : ModsMap} {n m : String} {d : ModData}
    (h : m ≠ n) :
    mapFind (mods.map (fun e => if e.1 == n then (n, d) else e)) m = mapFind mods m := by
  induction mods with
  | nil => rfl
  | cons e es ih =>
    by_cases h1 : e.1 = n
    · have hb : (e.1 == n) = true := by simp [h1]
      have hnm : (n == m) = false := beq_false_of_ne (Ne.symm h)
      have hem : (e.1 == m) = false := by
        rw [h1]
        exact hnm
      simp only [List.map_cons, hb, if_true, mapFind, hnm, hem, Bool.false_eq_true, if_false]
      exact ih
    · have hb : (e.1 == n) = false := by simp [h1]
      simp only [List.map_cons, hb, Bool.false_eq_true, if_false, mapFind]
      by_cases h2 : (e.1 == m) = true
      · simp [h2]
      · have h2' : (e.1 == m) = false := by simpa using h2
        simp only [h2', Bool.false_eq_true, if_false]
        exact ih

theorem mapFind_append_single_self {mods : ModsMap} {n : String} {d : ModData}
    (h : memMods mods n = false) :
    mapFind (mods ++ [(n, d)]) n = some d := by
  induction mods with
  | nil => simp [mapFind]
  | cons e es ih =>
    by_cases h1 : e.1 = n
    · exfalso
      have : memMods (e :: es) n = true := by
        have hb : (e.1 == n) = true := by simp [h1]
        simp [memMods, mapFind, hb]
      rw [this] at h
      exact Bool.noConfusion h
    · have hb : (e.1 == n) = false := by simp [h1]
      have h2 : memMods es n = false := by
        simpa [memMods, mapFind, hb] using h
      simp only [List.cons_append, mapFind, hb, Bool.false_eq_true, if_false]
      exact ih h2

theorem mapFind_append_single_ne {mods : ModsMap} {n m : String} {d : ModData}
    (h : m ≠ n) :
    mapFind (mods ++ [(n, d)]) m = mapFind mods m := by
  induction mods with
  | nil =>
    have hnm : (n == m) = false := beq_false_of_ne (Ne.symm h)
    simp [mapFind, hnm]
  | cons e es ih =>
    simp only [List.cons_append, mapFind]
    by_cases h2 : (e.1 == m) = true
    · simp [h2]
    · have h2' : (e.1 == m) = false := by simpa using h2
      simp only [h2', Bool.false_eq_true, if_false]
      exact ih

theorem mapFind_mapInsert_self {mods : ModsMap} {n : String} {d : ModData} :
    mapFind (mapInsert mods n d) n = some d := by
  unfold mapInsert
  by_cases h : memMods mods n = true
  · rw [if_pos h]
    exact mapFind_map_replace_self h
  · have h' : memMods mods n = false := by simpa using h
    rw [if_neg h]
    exact mapFind_append_single_self h'

theorem mapFind_mapInsert_ne {mods : ModsMap} {n m : String} {d : ModData}
    (h : m ≠ n) : mapFind (mapInsert mods n d) m = mapFind mods m := by
  unfold mapInsert
  by_cases hm : memMods mods n = true
  · rw [if_pos hm]
    exact mapFind_map_replace_ne h
  · rw [if_neg hm]
    exact mapFind_append_single_ne h

theorem memMods_mapInsert {mods : ModsMap} {n m : String} {d : ModData} :
    memMods (mapInsert mods n d) m = true ↔ memMods mods m = true ∨ m = n := by
  by_cases h : m = n
  · subst h
    simp [memMods, mapFind_mapInsert_self]
  · rw [memMods, mapFind_mapInsert_ne h, ← memMods]
    simp [h]

theorem keys_map_replace {mods : ModsMap} {n : String} {d : ModData} :
    (mods.map (fun e => if e.1 == n then (n, d) else e)).map Prod.fst =
      mods.map Prod.fst := by
  rw [List.map_map]
  apply List.map_congr_left
  intro e _
  by_cases h1 : e.1 = n
  · have hb : (e.1 == n) = true := by simp [h1]
    simp [Function.comp, hb, h1]
  · have hb : (e.1 == n) = false := by simp [h1]
    simp [Function.comp, hb]

theorem keys_mapInsert {mods : ModsMap} {n : String} {d : ModData} :
    (mapInsert mods n d).map Prod.fst =
      if memMods mods n = true then mods.map Prod.fst else mods.map Prod.fst ++ [n] := by
  unfold mapInsert
  by_cases h : memMods mods n = true
  · rw [if_pos h, if_pos h, keys_map_replace]
  · rw [if_neg h, if_neg h, List.map_append]
    rfl


/-! ## Lemmas about one fetch wave -/

theorem mem_mapInsert {mods : ModsMap} {n : String} {d : ModData} {e' : String × ModData}
    (h : e' ∈ mapInsert mods n d) : e' ∈ mods ∨ e' = (n, d) := by
  unfold mapInsert at h
  by_cases hm : memMods mods n = true
  · rw [if_pos hm, List.mem_map] at h
    obtain ⟨a, ha, hfa⟩ := h
    by_cases h1 : (a.1 == n) = true
    · right
      rw [← hfa]
      simp [h1]
    · left
      rw [← hfa]
      simpa [h1] using ha
  · rw [if_neg hm, List.mem_append] at h
    rcases h with h | h
    · exact Or.inl h
    · right
      simpa using h

theorem keys_retrieveInto {fv : String} {fetch : Fetch} {mods : ModsMap} {n : String} :
    (retrieveInto fv fetch mods n).1.map Prod.fst = mods.map Prod.fst := by
  unfold retrieveInto
  cases hf : fetch n with
  | error e => rfl
  | ok meta =>
    cases hl : mapFind mods n with
    | none => rfl
    | some d =>
      have hm : memMods mods n = true := by rw [memMods, hl]; rfl
      simp only [mapInsert, hm, if_true]
      exact keys_map_replace

theorem memMods_retrieveInto {fv : String} {fetch : Fetch} {mods : ModsMap} {n m : String} :
    memMods (retrieveInto fv fetch mods n).1 m = memMods mods m := by
  by_cases h : memMods (retrieveInto fv fetch mods n).1 m = true
  · rw [h]
    rw [memMods_true_iff_mem_keys, keys_retrieveInto, ← memMods_true_iff_mem_keys] at h
    exact h.symm
  · have h' := h
    rw [memMods_true_iff_mem_keys, keys_retrieveInto, ← memMods_true_iff_mem_keys] at h'
    rw [Bool.not_eq_true] at h h'
    rw [h, h']

theorem keys_fetchWave {fv : String} {fetch : Fetch} :
    ∀ (ns : List String) (acc : ModsMap × List String),
    (fetchWave fv fetch ns acc).1.map Prod.fst = acc.1.map Prod.fst := by
  intro ns
  induction ns with
  | nil => intro acc; rfl
  | cons n rest ih =>
    intro acc
    rw [fetchWave, ih]
    exact keys_retrieveInto

theorem memMods_fetchWave {fv : String} {fetch : Fetch} {ns : List String}
    {acc : ModsMap × List String} {m : String} :
    memMods (fetchWave fv fetch ns acc).1 m = memMods acc.1 m := by
  by_cases h : memMods (fetchWave fv fetch ns acc).1 m = true
  · rw [h]
    rw [memMods_true_iff_mem_keys, keys_fetchWave, ← memMods_true_iff_mem_keys] at h
    exact h.symm
  · have h' := h
    rw [memMods_true_iff_mem_keys, keys_fetchWave, ← memMods_true_iff_mem_keys] at h'
    rw [Bool.not_eq_true] at h h'
    rw [h, h']

theorem fetchWave_errs_mono {fv : String} {fetch : Fetch} :
    ∀ (ns : List String) (acc : ModsMap × List String) {e : String},
    e ∈ acc.2 → e ∈ (fetchWave fv fetch ns acc).2 := by
  intro ns
  induction ns with
  | nil => intro acc e h; exact h
  | cons n rest ih =>
    intro acc e h
    rw [fetchWave]
    exact ih _ (List.mem_append_left _ h)

theorem fetchWave_errs_collect {fv : String} {fetch : Fetch} :
    ∀ (ns : List String) (acc : ModsMap × List String) {n err : String},
    n ∈ ns → fetch n = Except.error err → err ∈ (fetchWave fv fetch ns acc).2 := by
  intro ns
  induction ns with
  | nil => intro acc n err h; simp at h
  | cons m rest ih =>
    intro acc n err h hf
    rw [fetchWave]
    rcases List.mem_cons.mp h with h | h
    · subst h
      apply fetchWave_errs_mono
      apply List.mem_append_right
      simp [retrieveInto, hf]
    · exact ih _ h hf

/-- An entry has been resolved against the registry: whenever the fetch
for its name succeeds, the tracked entry carries the metadata's title,
deprecated flag and selected release. -/
def resolvedAt (fv : String) (fetch : Fetch) (mods : ModsMap) (n : String) : Prop :=
  ∀ meta, fetch n = Except.ok meta →
    ∃ d, mapFind mods n = some d ∧ d.title = meta.title ∧
      d.deprecated = meta.deprecated ∧ d.latest = selectLatest fv meta.releases

theorem retrieveInto_resolvedAt_self {fv : String} {fetch : Fetch} {mods : ModsMap}
    {n : String} (h : memMods mods n = true) :
    resolvedAt fv fetch (retrieveInto fv fetch mods n).1 n := by
  intro meta hf
  obtain ⟨d, hd⟩ := memMods_true_iff.mp h
  refine ⟨applyMetadata fv d meta, ?_, rfl, rfl, rfl⟩
  simp only [retrieveInto, hf, hd]
  exact mapFind_mapInsert_self

theorem retrieveInto_preserves_resolvedAt {fv : String} {fetch : Fetch} {mods : ModsMap}
    {n m : String} (h : resolvedAt fv fetch mods m) :
    resolvedAt fv fetch (retrieveInto fv fetch mods n).1 m := by
  by_cases hnm : m = n
  · subst hnm
    intro meta hf
    obtain ⟨d, hd, _⟩ := h meta hf
    refine ⟨applyMetadata fv d meta, ?_, rfl, rfl, rfl⟩
    simp only [retrieveInto, hf, hd]
    exact mapFind_mapInsert_self
  · intro meta hf
    obtain ⟨d, hd, h1, h2, h3⟩ := h meta hf
    refine ⟨d, ?_, h1, h2, h3⟩
    rw [← hd]
    unfold retrieveInto
    cases hf' : fetch n with
    | error e => rfl
    | ok meta' =>
      cases hl : mapFind mods n with
      | none => rfl
      | some d' =>
        simp only
        exact mapFind_mapInsert_ne hnm

theorem fetchWave_preserves_resolvedAt {fv : String} {fetch : Fetch} :
    ∀ (ns : List String) (acc : ModsMap × List String) {m : String},
    resolvedAt fv fetch acc.1 m →
    resolvedAt fv fetch (fetchWave fv fetch ns acc).1 m := by
  intro ns
  induction ns with
  | nil => intro acc m h; exact h
  | cons n rest ih =>
    intro acc m h
    rw [fetchWave]
    exact ih _ (retrieveInto_preserves_resolvedAt h)

theorem fetchWave_resolvedAt_of_mem {fv : String} {fetch : Fetch} :
    ∀ (ns : List String) (acc : ModsMap × List String) {n : String},
    n ∈ ns → memMods acc.1 n = true →
    resolvedAt fv fetch (fetchWave fv fetch ns acc).1 n := by
  intro ns
  induction ns with
  | nil => intro acc n h; simp at h
  | cons m rest ih =>
    intro acc n h hmem
    rw [fetchWave]
    by_cases hcase : n ∈ rest
    · exact ih _ hcase (by rw [memMods_retrieveInto]; exact hmem)
    · have hnm : n = m := by
        rcases List.mem_cons.mp h with h' | h'
        · exact h'
        · exact absurd h' hcase
      subst hnm
      exact fetchWave_preserves_resolvedAt _ _ (retrieveInto_resolvedAt_self hmem)

/-! ## Lemmas about discovery: missing names, insertion, sorting -/

theorem mapFind_addMissing_not_mem {names : List String} {mods : ModsMap} {n : String}
    (h : n ∉ names) : mapFind (addMissing mods names) n = mapFind mods n := by
  induction names generalizing mods with
  | nil => rfl
  | cons m ms ih =>
    have h1 : n ≠ m := fun hh => h (hh ▸ List.mem_cons_self m ms)
    have h2 : n ∉ ms := fun hh => h (List.mem_cons_of_mem _ hh)
    rw [addMissing, ih h2, mapFind_mapInsert_ne h1]

theorem mapFind_addMissing_mem {names : List String} {mods : ModsMap} {n : String}
    (h : n ∈ names) :
    mapFind (addMissing mods names) n = some { name := n, title := n, enabled := true } := by
  induction names generalizing mods with
  | nil => simp at h
  | cons m ms ih =>
    rw [addMissing]
    by_cases h2 : n ∈ ms
    · exact ih h2
    · have h1 : n = m := by
        rcases List.mem_cons.mp h with h' | h'
        · exact h'
        · exact absurd h' h2
      subst h1
      rw [mapFind_addMissing_not_mem h2, mapFind_mapInsert_self]

theorem addMissing_entry {names : List String} {mods : ModsMap} {e' : String × ModData}
    (h : e' ∈ addMissing mods names) : e' ∈ mods ∨ e'.2.latest = none := by
  induction names generalizing mods with
  | nil => exact Or.inl h
  | cons m ms ih =>
    rw [addMissing] at h
    rcases ih h with h' | h'
    · rcases mem_mapInsert h' with h'' | h''
      · exact Or.inl h''
      · right
        rw [h'']
    · exact Or.inr h'

theorem missingOf_not_mem {mods : ModsMap} {n : String} (h : n ∈ missingOf mods) :
    memMods mods n = false := by
  unfold missingOf at h
  rw [List.mem_dedup, List.mem_flatMap] at h
  obtain ⟨e, he, hn⟩ := h
  cases hl : e.2.latest with
  | none =>
    rw [hl] at hn
    simp at hn
  | some rel =>
    rw [hl] at hn
    have := (List.mem_filter.mp hn).2
    simpa using this

theorem perm_insertSortedBy {α : Type} (le : α → α → Bool) (x : α) (l : List α) :
    List.Perm (insertSortedBy le x l) (x :: l) := by
  induction l with
  | nil => exact List.Perm.refl _
  | cons y ys ih =>
    rw [insertSortedBy]
    by_cases h : le x y = true
    · rw [if_pos h]
    · rw [if_neg h]
      exact (List.Perm.cons y ih).trans (List.Perm.swap x y ys)

theorem perm_sortBy {α : Type} (le : α → α → Bool) (l : List α) :
    List.Perm (sortBy le l) l := by
  induction l with
  | nil => exact List.Perm.refl _
  | cons x xs ih =>
    rw [sortBy]
    exact (perm_insertSortedBy le x (sortBy le xs)).trans (List.Perm.cons x ih)

theorem mem_sortBy {α : Type} {le : α → α → Bool} {l : List α} {a : α} :
    a ∈ sortBy le l ↔ a ∈ l :=
  (perm_sortBy le l).mem_iff

/-! ## A finite universe bounds the discovery (claim C3) -/

/-- Every dependency name required by a release already selected in the
working set lies in the universe `U`. -/
def depsBounded (U : Finset String) (mods : ModsMap) : Prop :=
  ∀ e ∈ mods, ∀ rel, e.2.latest = some rel → ∀ n ∈ depNames rel, n ∈ U

/-- Every dependency name mentioned by any release the registry can ever
return lies in the universe `U` (the registry's reachable graph is
finite). -/
def fetchBounded (fetch : Fetch) (U : Finset String) : Prop :=
  ∀ name meta, fetch name = Except.ok meta → ∀ rel ∈ meta.releases, ∀ n ∈ depNames rel, n ∈ U

theorem selectLatest_mem_aux (fv : String) :
    ∀ (rels : List ModRelease) (acc : Option ModRelease) (r : ModRelease),
    rels.foldl
      (fun latest rel =>
        if versionMatch fv rel.infoJSON.factorioVersion then some rel else latest)
      acc = some r →
    r ∈ rels ∨ acc = some r := by
  intro rels
  induction rels with
  | nil => intro acc r h; exact Or.inr h
  | cons x xs ih =>
    intro acc r h
    rw [List.foldl_cons] at h
    rcases ih _ r h with h' | h'
    · exact Or.inl (List.mem_cons_of_mem _ h')
    · by_cases hc : versionMatch fv x.infoJSON.factorioVersion = true
      · rw [if_pos hc] at h'
        have : x = r := by injection h'
        exact Or.inl (this ▸ List.mem_cons_self x xs)
      · rw [if_neg hc] at h'
        exact Or.inr h'

theorem selectLatest_mem {fv : String} {rels : List ModRelease} {r : ModRelease}
    (h : selectLatest fv rels = some r) : r ∈ rels := by
  rcases selectLatest_mem_aux fv rels none r h with h' | h'
  · exact h'
  · exact Option.noConfusion h'

theorem missingOf_bounded {U : Finset String} {mods : ModsMap}
    (hD : depsBounded U mods) : ∀ n ∈ missingOf mods, n ∈ U := by
  intro n h
  unfold missingOf at h
  rw [List.mem_dedup, List.mem_flatMap] at h
  obtain ⟨e, he, hn⟩ := h
  cases hl : e.2.latest with
  | none =>
    rw [hl] at hn
    simp at hn
  | some rel =>
    rw [hl] at hn
    exact hD e he rel hl n (List.mem_filter.mp hn).1

theorem depsBounded_retrieveInto {U : Finset String} {fv : String} {fetch : Fetch}
    {mods : ModsMap} {n : String}
    (hD : depsBounded U mods) (hF : fetchBounded fetch U) :
    depsBounded U (retrieveInto fv fetch mods n).1 := by
  intro e' he' rel hrel nm hn
  revert he'
  unfold retrieveInto
  cases hf : fetch n with
  | error e => intro he'; exact hD e' he' rel hrel nm hn
  | ok meta =>
    cases hl : mapFind mods n with
    | none => intro he'; exact hD e' he' rel hrel nm hn
    | some d =>
      intro he'
      simp only at he'
      rcases mem_mapInsert he' with h | h
      · exact hD e' h rel hrel nm hn
      · rw [h] at hrel
        have hsel : selectLatest fv meta.releases = some rel := by
          simpa [applyMetadata] using hrel
        exact hF n meta hf rel (selectLatest_mem hsel) nm hn

theorem depsBounded_fetchWave {U : Finset String} {fv : String} {fetch : Fetch} :
    ∀ (ns : List String) (acc : ModsMap × List String),
    depsBounded U acc.1 → fetchBounded fetch U →
    depsBounded U (fetchWave fv fetch ns acc).1 := by
  intro ns
  induction ns with
  | nil => intro acc hD _; exact hD
  | cons n rest ih =>
    intro acc hD hF
    rw [fetchWave]
    exact ih _ (depsBounded_retrieveInto hD hF) hF

theorem depsBounded_addMissing {U : Finset String} {mods : ModsMap} {names : List String}
    (hD : depsBounded U mods) : depsBounded U (addMissing mods names) := by
  intro e' he' rel hrel nm hn
  rcases addMissing_entry he' with h | h
  · exact hD e' h rel hrel nm hn
  · rw [h] at hrel
    exact Option.noConfusion hrel

/-! ## The key set as a finset, and the termination measure -/

def keysFinset (mods : ModsMap) : Finset String :=
  (mods.map Prod.fst).toFinset

theorem memMods_iff_keysFinset {mods : ModsMap} {n : String} :
    memMods mods n = true ↔ n ∈ keysFinset mods := by
  rw [memMods_true_iff_mem_keys, keysFinset, List.mem_toFinset]

theorem keysFinset_mapInsert {mods : ModsMap} {n : String} {d : ModData} :
    keysFinset (mapInsert mods n d) = keysFinset mods ∪ {n} := by
  unfold keysFinset
  rw [keys_mapInsert]
  by_cases h : memMods mods n = true
  · rw [if_pos h]
    have hn : n ∈ (mods.map Prod.fst).toFinset := by
      rw [List.mem_toFinset]
      exact memMods_true_iff_mem_keys.mp h
    ext a
    simp only [Finset.mem_union, Finset.mem_singleton]
    constructor
    · exact Or.inl
    · rintro (ha | rfl)
      · exact ha
      · exact hn
  · rw [if_neg h, List.toFinset_append]
    simp

theorem keysFinset_addMissing {names : List String} {mods : ModsMap} :
    keysFinset (addMissing mods names) = keysFinset mods ∪ names.toFinset := by
  induction names generalizing mods with
  | nil => simp [addMissing]
  | cons m ms ih =>
    rw [addMissing, ih, keysFinset_mapInsert, List.toFinset_cons]
    ext a
    simp only [Finset.mem_union, Finset.mem_singleton, Finset.mem_insert]
    tauto

theorem keysFinset_fetchWave {fv : String} {fetch : Fetch} {ns : List String}
    {acc : ModsMap × List String} :
    keysFinset (fetchWave fv fetch ns acc).1 = keysFinset acc.1 := by
  unfold keysFinset
  rw [keys_fetchWave]

/-- Strict growth of the key set in every non-final iteration: after a
non-empty wave, the uncovered part of the universe strictly shrinks. -/
theorem resolveStep_card_lt {U : Finset String} {fv : String} {fetch : Fetch}
    {mods : ModsMap} {errs : List String}
    (hD : depsBounded U mods) (hne : missingOf mods ≠ []) :
    (U \ keysFinset (resolveStep fv fetch mods errs).1).card <
      (U \ keysFinset mods).card := by
  obtain ⟨n, hn⟩ := List.exists_mem_of_ne_nil _ hne
  have hkeys : keysFinset (resolveStep fv fetch mods errs).1 =
      keysFinset mods ∪ (sortBy strLe (missingOf mods)).toFinset := by
    unfold resolveStep
    rw [keysFinset_fetchWave, keysFinset_addMissing]
  apply Finset.card_lt_card
  rw [Finset.ssubset_iff_of_subset]
  · refine ⟨n, ?_, ?_⟩
    · rw [Finset.mem_sdiff]
      refine ⟨missingOf_bounded hD n hn, ?_⟩
      intro hk
      rw [← memMods_iff_keysFinset] at hk
      rw [missingOf_not_mem hn] at hk
      exact Bool.noConfusion hk
    · rw [Finset.mem_sdiff, hkeys]
      rintro ⟨-, hnot⟩
      apply hnot
      rw [Finset.mem_union, List.mem_toFinset, mem_sortBy]
      exact Or.inr hn
  · apply Finset.sdiff_subset_sdiff (Finset.Subset.refl U)
    rw [hkeys]
    exact Finset.subset_union_left

theorem depsBounded_resolveStep {U : Finset String} {fv : String} {fetch : Fetch}
    {mods : ModsMap} {errs : List String}
    (hD : depsBounded U mods) (hF : fetchBounded fetch U) :
    depsBounded U (resolveStep fv fetch mods errs).1 := by
  unfold resolveStep
  exact depsBounded_fetchWave _ _ (depsBounded_addMissing hD) hF

theorem resolveLoop_isSome {U : Finset String} {fv : String} {fetch : Fetch}
    (hF : fetchBounded fetch U) :
    ∀ (fuel : Nat) (mods : ModsMap) (errs : List String), depsBounded U mods →
    (U \ keysFinset mods).card ≤ fuel →
    (resolveLoop fv fetch fuel mods errs).isSome = true := by
  intro fuel
  induction fuel with
  | zero =>
    intro mods errs hD hcard
    have hmiss : missingOf mods = [] := by
      by_contra hne
      obtain ⟨n, hn⟩ := List.exists_mem_of_ne_nil _ hne
      have hmemU : n ∈ U \ keysFinset mods := by
        rw [Finset.mem_sdiff]
        refine ⟨missingOf_bounded hD n hn, ?_⟩
        intro hk
        rw [← memMods_iff_keysFinset] at hk
        rw [missingOf_not_mem hn] at hk
        exact Bool.noConfusion hk
      have := Finset.card_pos.mpr ⟨n, hmemU⟩
      omega
    rw [resolveLoop, if_pos hmiss]
    rfl
  | succ fuel ih =>
    intro mods errs hD hcard
    by_cases hmiss : missingOf mods = []
    · rw [resolveLoop, if_pos hmiss]
      rfl
    · rw [resolveLoop, if_neg hmiss]
      apply ih _ _ (depsBounded_resolveStep hD hF)
      have := @resolveStep_card_lt U fv fetch mods errs hD hmiss
      omega

/-! ## Claim C3 -/

/-- **C3**: the discovery loop of `ResolveMetadata` terminates on every
finite dependency graph, cycles included: (i) a wave's missing names are
never already present, so re-adding a present name cannot occur; (ii) a
wave that discovers nothing ends the loop immediately with the current
state; (iii) whenever a finite universe `U` bounds every dependency name
the registry (and the current working set) can mention, fuel
`(U \ keys).card` suffices for the loop to reach its fixed point. -/
theorem resolveLoop_terminates (fv : String) (fetch : Fetch) (U : Finset String)
    (fuel : Nat) (mods : ModsMap) (errs : List String) :
    (∀ n ∈ missingOf mods, memMods mods n = false) ∧
    (missingOf mods = [] → resolveLoop fv fetch fuel mods errs = some (mods, errs)) ∧
    (fetchBounded fetch U → depsBounded U mods → (U \ keysFinset mods).card ≤ fuel →
      (resolveLoop fv fetch fuel mods errs).isSome = true) := by
  refine ⟨fun n hn => missingOf_not_mem hn, ?_, ?_⟩
  · intro hmiss
    cases fuel with
    | zero => rw [resolveLoop, if_pos hmiss]
    | succ fuel => rw [resolveLoop, if_pos hmiss]
  · intro hF hD hcard
    exact resolveLoop_isSome hF fuel mods errs hD hcard

def c3Rel : ModRelease :=
  ModRelease.mk "/dl/a" "a_1.0.0.zip" (InfoJSON.mk "2.0" ["flib"]) "h" "1.0.0"

def c3Mods : ModsMap :=
  [("a", { name := "a", title := "a", enabled := true, latest := some c3Rel })]

def c3Fetch : Fetch := fun n =>
  if n == "flib" then Except.ok (ModPortalMetadata.mk "Flib" false [])
  else Except.error "registry down"

/-- Witness for C3: a concrete working set whose selected release
requires one missing dependency; with universe `{a, flib}` and fuel 1 the
loop reaches its fixed point. -/
theorem resolveLoop_terminates_witness :
    (resolveLoop "2.0" c3Fetch 1 c3Mods []).isSome = true := by
  apply (resolveLoop_terminates "2.0" c3Fetch {"a", "flib"} 1 c3Mods []).2.2
  · intro name meta hf rel hrel n hn
    unfold c3Fetch at hf
    by_cases hb : (name == "flib") = true
    · rw [if_pos hb] at hf
      injection hf with hf
      rw [← hf] at hrel
      simp at hrel
    · rw [if_neg hb] at hf
      exact Except.noConfusion hf
  · intro e he rel hrel n hn
    have he' : e = ("a", { name := "a", title := "a", enabled := true, latest := some c3Rel }) := by
      simpa [c3Mods] using he
    rw [he'] at hrel
    simp only at hrel
    injection hrel with hrel
    rw [← hrel] at hn
    have hd : depNames c3Rel = ["flib"] := by decide
    rw [hd] at hn
    simp only [List.mem_singleton] at hn
    rw [hn]
    decide
  · decide

/-! ## Error accumulation and resolution state (claim C4) -/

/-- Every fetch failure of a tracked name has its error recorded. -/
def errInv (fetch : Fetch) (mods : ModsMap) (errs : List String) : Prop :=
  ∀ n e, memMods mods n = true → fetch n = Except.error e → e ∈ errs

/-- Every tracked name has been resolved against the registry. -/
def resInv (fv : String) (fetch : Fetch) (mods : ModsMap) : Prop :=
  ∀ n, memMods mods n = true → resolvedAt fv fetch mods n

theorem memMods_resolveStep_mono {fv : String} {fetch : Fetch} {mods : ModsMap}
    {errs : List String} {n : String} (h : memMods mods n = true) :
    memMods (resolveStep fv fetch mods errs).1 n = true := by
  rw [memMods_iff_keysFinset] at h ⊢
  unfold resolveStep
  rw [keysFinset_fetchWave, keysFinset_addMissing]
  exact Finset.mem_union_left _ h

theorem errInv_resolveStep {fv : String} {fetch : Fetch} {mods : ModsMap}
    {errs : List String} (h : errInv fetch mods errs) :
    errInv fetch (resolveStep fv fetch mods errs).1 (resolveStep fv fetch mods errs).2 := by
  intro n e hmem hf
  unfold resolveStep at hmem ⊢
  rw [memMods_fetchWave] at hmem
  by_cases hn : n ∈ sortBy strLe (missingOf mods)
  · exact fetchWave_errs_collect _ _ hn hf
  · have hold : memMods mods n = true := by
      rw [memMods, mapFind_addMissing_not_mem hn] at hmem
      exact hmem
    exact fetchWave_errs_mono _ _ (h n e hold hf)

theorem resolvedAt_addMissing {fv : String} {fetch : Fetch} {mods : ModsMap}
    {names : List String} {n : String}
    (h : resolvedAt fv fetch mods n) (hn : n ∉ names) :
    resolvedAt fv fetch (addMissing mods names) n := by
  intro meta hf
  obtain ⟨d, hd, h1, h2, h3⟩ := h meta hf
  refine ⟨d, ?_, h1, h2, h3⟩
  rw [mapFind_addMissing_not_mem hn]
  exact hd

theorem resInv_resolveStep {fv : String} {fetch : Fetch} {mods : ModsMap}
    {errs : List String} (hR : resInv fv fetch mods) :
    resInv fv fetch (resolveStep fv fetch mods errs).1 := by
  intro n hmem
  unfold resolveStep at hmem ⊢
  rw [memMods_fetchWave] at hmem
  by_cases hn : n ∈ sortBy strLe (missingOf mods)
  · exact fetchWave_resolvedAt_of_mem _ _ hn hmem
  · have hold : memMods mods n = true := by
      rw [memMods, mapFind_addMissing_not_mem hn] at hmem
      exact hmem
    exact fetchWave_preserves_resolvedAt _ _ (resolvedAt_addMissing (hR n hold) hn)

theorem resolveLoop_out {fv : String} {fetch : Fetch} :
    ∀ (fuel : Nat) (mods : ModsMap) (errs : List String) (out : ModsMap × List String),
    resolveLoop fv fetch fuel mods errs = some out →
    (∀ n, memMods mods n = true → memMods out.1 n = true) ∧
    (∀ e, e ∈ errs → e ∈ out.2) ∧
    (errInv fetch mods errs → errInv fetch out.1 out.2) ∧
    (resInv fv fetch mods → resInv fv fetch out.1) := by
  intro fuel
  induction fuel with
  | zero =>
    intro mods errs out h
    rw [resolveLoop] at h
    by_cases hmiss : missingOf mods = []
    · rw [if_pos hmiss] at h
      injection h with h
      rw [← h]
      exact ⟨fun n hn => hn, fun e he => he, fun hi => hi, fun hi => hi⟩
    · rw [if_neg hmiss] at h
      exact Option.noConfusion h
  | succ fuel ih =>
    intro mods errs out h
    rw [resolveLoop] at h
    by_cases hmiss : missingOf mods = []
    · rw [if_pos hmiss] at h
      injection h with h
      rw [← h]
      exact ⟨fun n hn => hn, fun e he => he, fun hi => hi, fun hi => hi⟩
    · rw [if_neg hmiss] at h
      obtain ⟨hmem, herr, hEI, hRI⟩ := ih _ _ _ h
      refine ⟨?_, ?_, ?_, ?_⟩
      · intro n hn
        exact hmem n (memMods_resolveStep_mono hn)
      · intro e he
        apply herr
        unfold resolveStep
        exact fetchWave_errs_mono _ _ he
      · intro hi
        exact hEI (errInv_resolveStep hi)
      · intro hi
        exact hRI (resInv_resolveStep hi)

/-! ## Claim C4 -/

/-- **C4**: per-item metadata fetch failures are accumulated, never
silently dropped.  Whenever `resolveMetadata` completes: every tracked
item whose fetch fails has its error in the returned error list (so at
least one failure makes that list non-empty), every initially tracked
item is still in the returned working set, and every tracked item whose
fetch succeeds keeps its resolved state (title, deprecated flag, selected
release) in that set — the fatal/non-fatal judgment is the caller's. -/
theorem resolveMetadata_error_accum (fv : String) (fetch : Fetch) (fuel : Nat)
    (mods0 : ModsMap) (out : ModsMap × List String)
    (h : resolveMetadata fv fetch fuel mods0 = some out) :
    (∀ n e, memMods out.1 n = true → fetch n = Except.error e → e ∈ out.2) ∧
    (∀ n, memMods mods0 n = true → memMods out.1 n = true) ∧
    (∀ n meta, memMods out.1 n = true → fetch n = Except.ok meta →
      ∃ d, mapFind out.1 n = some d ∧ d.title = meta.title ∧
        d.deprecated = meta.deprecated ∧ d.latest = selectLatest fv meta.releases) := by
  unfold resolveMetadata at h
  obtain ⟨hmem, _herr, hEI, hRI⟩ := resolveLoop_out _ _ _ _ h
  have hkeys : ∀ n, memMods (fetchWave fv fetch (sortBy strLe (mods0.map Prod.fst))
      (mods0, [])).1 n = memMods mods0 n := by
    intro n
    exact memMods_fetchWave
  have hEI0 : errInv fetch (fetchWave fv fetch (sortBy strLe (mods0.map Prod.fst))
      (mods0, [])).1 (fetchWave fv fetch (sortBy strLe (mods0.map Prod.fst)) (mods0, [])).2 := by
    intro n e hmem' hf
    rw [hkeys] at hmem'
    have hns : n ∈ sortBy strLe (mods0.map Prod.fst) := by
      rw [mem_sortBy]
      exact memMods_true_iff_mem_keys.mp hmem'
    exact fetchWave_errs_collect _ _ hns hf
  have hRI0 : resInv fv fetch (fetchWave fv fetch (sortBy strLe (mods0.map Prod.fst))
      (mods0, [])).1 := by
    intro n hmem'
    have hmem0 : memMods mods0 n = true := by
      rw [← hkeys n]
      exact hmem'
    have hns : n ∈ sortBy strLe (mods0.map Prod.fst) := by
      rw [mem_sortBy]
      exact memMods_true_iff_mem_keys.mp (by rw [hkeys] at hmem'; exact hmem')
    exact fetchWave_resolvedAt_of_mem _ _ hns (by exact hmem0)
  refine ⟨hEI hEI0, ?_, ?_⟩
  · intro n hn
    apply hmem
    rw [hkeys]
    exact hn
  · intro n meta hn hf
    exact hRI hRI0 n hn meta hf

def c4Mods : ModsMap := [("a", { name := "a", title := "a", enabled := true })]

def c4Fetch : Fetch := fun _ => Except.error "boom"

/-- Witness for C4: a run whose single item's fetch fails returns that
error in the accumulated list. -/
theorem resolveMetadata_error_accum_witness :
    "boom" ∈ (c4Mods, ["boom"]).2 :=
  (resolveMetadata_error_accum "2.0" c4Fetch 0 c4Mods (c4Mods, ["boom"]) rfl).1
    "a" "boom" (by decide) rfl

/-! ## LocalInventory (`parseModList`) -/

/-- One entry of a directory listing. -/
structure DirEntry where
  name : String
  isDir : Bool
deriving Repr, DecidableEq

/-- `modZipRe = ^(.*)_(\d+\.\d+\.\d+)\.zip$` applied to a file name.  The
greedy `(.*)` takes the longest name, i.e. the split is at the last
underscore; since neither the version shape nor `.zip` can contain an
underscore, at most one split is valid.  `.` does not match a newline. -/
def modZipParse (fname : String) : Option (String × String) :=
  if strEndsWith fname ".zip" then
    let rcs := fname.toList.reverse.drop 4
    let (verR, rest) := rcs.span (fun c => !(c == '_'))
    match rest with
    | '_' :: nameR =>
      let name := nameR.reverse
      let ver := verR.reverse
      if isVersionTriple ver && name.all (fun c => !(c == '\n')) then
        some (name.asString, ver.asString)
      else none
    | _ => none
  else none

/-- The manifest loop of `parseModList`: built-in names are dropped, the
rest enter the working set with their enabled flag (later duplicates
overwrite, as in a Go map). -/
def parseModListEntries : ModsMap → List (String × Bool) → ModsMap
  | mods, [] => mods
  | mods, (nm, en) :: rest =>
    if isBuiltInMod nm then parseModListEntries mods rest
    else parseModListEntries (mapInsert mods nm { name := nm, enabled := en, title := nm }) rest

/-- The directory loop of `parseModList`: every non-directory entry that
matches `modZipRe` and whose name is tracked marks that item installed at
the parsed version. -/
def markInstalled : ModsMap → List DirEntry → ModsMap
  | mods, [] => mods
  | mods, f :: rest =>
    if f.isDir then markInstalled mods rest
    else
      match modZipParse f.name with
      | some (nm, ver) =>
        match mapFind mods nm with
        | some d =>
          markInstalled (mapInsert mods nm { d with installed := true, version := ver }) rest
        | none => markInstalled mods rest
      | none => markInstalled mods rest

/-- `parseModList`: manifest entries, then the installed-artifact scan
(the working set starts empty in `NewUpdater`). -/
def parseModList (entries : List (String × Bool)) (dir : List DirEntry) : ModsMap :=
  markInstalled (parseModListEntries [] entries) dir

/-! ## Claim C9 -/

theorem parseModListEntries_not_builtin :
    ∀ (entries : List (String × Bool)) (mods : ModsMap) (n : String),
    memMods (parseModListEntries mods entries) n = true →
    memMods mods n = true ∨ isBuiltInMod n = false := by
  intro entries
  induction entries with
  | nil => intro mods n h; exact Or.inl h
  | cons e rest ih =>
    intro mods n h
    obtain ⟨nm, en⟩ := e
    rw [parseModListEntries] at h
    by_cases hb : isBuiltInMod nm = true
    · rw [if_pos hb] at h
      exact ih mods n h
    · rw [if_neg hb] at h
      rcases ih _ n h with h' | h'
      · rcases memMods_mapInsert.mp h' with h'' | h''
        · exact Or.inl h''
        · right
          rw [h'']
          simpa using hb
      · exact Or.inr h'

theorem keys_markInstalled :
    ∀ (dir : List DirEntry) (mods : ModsMap),
    (markInstalled mods dir).map Prod.fst = mods.map Prod.fst := by
  intro dir
  induction dir with
  | nil => intro mods; rfl
  | cons f rest ih =>
    intro mods
    rw [markInstalled]
    by_cases hd : f.isDir = true
    · rw [if_pos hd, ih]
    · rw [if_neg hd]
      cases hz : modZipParse f.name with
      | none =>
        dsimp only
        rw [ih]
      | some p =>
        obtain ⟨nm, ver⟩ := p
        dsimp only
        cases hl : mapFind mods nm with
        | none =>
          dsimp only
          rw [ih]
        | some d =>
          dsimp only
          have hm : memMods mods nm = true := by rw [memMods, hl]; rfl
          rw [ih, keys_mapInsert, if_pos hm]

theorem depNames_not_builtin {rel : ModRelease} {n : String}
    (h : n ∈ depNames rel) : isBuiltInMod n = false := by
  unfold depNames at h
  rw [List.mem_filterMap] at h
  obtain ⟨depStr, _, hd⟩ := h
  by_cases hs : depSkipped depStr = true
  · rw [if_pos hs] at hd
    exact Option.noConfusion hd
  · rw [if_neg hs] at hd
    cases hp : parseDep depStr with
    | none =>
      rw [hp] at hd
      exact Option.noConfusion hd
    | some nm =>
      rw [hp] at hd
      dsimp only at hd
      by_cases hb : isBuiltInMod nm = true
      · rw [if_pos hb] at hd
        exact Option.noConfusion hd
      · rw [if_neg hb] at hd
        injection hd with hd
        rw [← hd]
        simpa using hb

theorem missingOf_not_builtin {mods : ModsMap} {n : String}
    (h : n ∈ missingOf mods) : isBuiltInMod n = false := by
  unfold missingOf at h
  rw [List.mem_dedup, List.mem_flatMap] at h
  obtain ⟨e, _, hn⟩ := h
  cases hl : e.2.latest with
  | none =>
    rw [hl] at hn
    simp at hn
  | some rel =>
    rw [hl] at hn
    exact depNames_not_builtin (List.mem_filter.mp hn).1

theorem noBuiltin_resolveStep {fv : String} {fetch : Fetch} {mods : ModsMap}
    {errs : List String}
    (h : ∀ n, memMods mods n = true → isBuiltInMod n = false) :
    ∀ n, memMods (resolveStep fv fetch mods errs).1 n = true → isBuiltInMod n = false := by
  intro n hn
  unfold resolveStep at hn
  rw [memMods_fetchWave] at hn
  by_cases hmem : n ∈ sortBy strLe (missingOf mods)
  · exact missingOf_not_builtin (mem_sortBy.mp hmem)
  · apply h
    rw [memMods, mapFind_addMissing_not_mem hmem] at hn
    exact hn

theorem noBuiltin_resolveLoop {fv : String} {fetch : Fetch} :
    ∀ (fuel : Nat) (mods : ModsMap) (errs : List String) (out : ModsMap × List String),
    resolveLoop fv fetch fuel mods errs = some out →
    (∀ n, memMods mods n = true → isBuiltInMod n = false) →
    ∀ n, memMods out.1 n = true → isBuiltInMod n = false := by
  intro fuel
  induction fuel with
  | zero =>
    intro mods errs out h hB
    rw [resolveLoop] at h
    by_cases hmiss : missingOf mods = []
    · rw [if_pos hmiss] at h
      injection h with h
      rw [← h]
      exact hB
    · rw [if_neg hmiss] at h
      exact Option.noConfusion h
  | succ fuel ih =>
    intro mods errs out h hB
    rw [resolveLoop] at h
    by_cases hmiss : missingOf mods = []
    · rw [if_pos hmiss] at h
      injection h with h
      rw [← h]
      exact hB
    · rw [if_neg hmiss] at h
      exact ih _ _ _ h (noBuiltin_resolveStep hB)

/-- **C9**: built-in names never enter the working set — neither from
manifest entries (`parseModList` drops them) nor as dependency specs
during resolution (`ResolveMetadata` skips them) — and the match is
case-sensitive: `"Base"` is not excluded and a manifest entry `"Base"`
*is* added. -/
theorem builtins_never_added :
    (∀ (entries : List (String × Bool)) (dir : List DirEntry) (n : String),
      memMods (parseModList entries dir) n = true → isBuiltInMod n = false) ∧
    (∀ (fv : String) (fetch : Fetch) (fuel : Nat) (mods0 : ModsMap)
      (out : ModsMap × List String) (n : String),
      resolveMetadata fv fetch fuel mods0 = some out →
      (∀ m, memMods mods0 m = true → isBuiltInMod m = false) →
      memMods out.1 n = true → isBuiltInMod n = false) ∧
    (isBuiltInMod "Base" = false ∧
      memMods (parseModList [("Base", true)] []) "Base" = true) := by
  refine ⟨?_, ?_, by decide, by decide⟩
  · intro entries dir n h
    unfold parseModList at h
    rw [memMods_true_iff_mem_keys, keys_markInstalled, ← memMods_true_iff_mem_keys] at h
    rcases parseModListEntries_not_builtin entries [] n h with h' | h'
    · simp [memMods, mapFind] at h'
    · exact h'
  · intro fv fetch fuel mods0 out n h hB hn
    unfold resolveMetadata at h
    apply noBuiltin_resolveLoop _ _ _ _ h _ n hn
    intro m hm
    rw [memMods_fetchWave] at hm
    exact hB m hm

/-- Witness for C9: a manifest with a built-in and a regular entry keeps
only the regular one, whose name is indeed not built-in. -/
theorem builtins_never_added_witness :
    isBuiltInMod "helmod" = false :=
  builtins_never_added.1 [("base", true), ("helmod", true)] [] "helmod" (by decide)

/-! ## Sorting lemmas -/

theorem listLe_total : ∀ a b : List Char, listLe a b = true ∨ listLe b a = true := by
  intro a
  induction a with
  | nil => intro b; left; rfl
  | cons x xs ih =>
    intro b
    cases b with
    | nil => right; rfl
    | cons y ys =>
      by_cases hxy : x = y
      · subst hxy
        rcases ih ys with h | h
        · left
          simpa [listLe] using h
        · right
          simpa [listLe] using h
      · rcases lt_trichotomy x y with hlt | heq | hgt
        · left
          simp [listLe, hxy, hlt]
        · exact absurd heq hxy
        · right
          simp [listLe, Ne.symm hxy, hgt]

theorem listLe_trans : ∀ a b c : List Char,
    listLe a b = true → listLe b c = true → listLe a c = true := by
  intro a
  induction a with
  | nil => intro b c _ _; rfl
  | cons x xs ih =>
    intro b c hab hbc
    cases b with
    | nil => simp [listLe] at hab
    | cons y ys =>
      cases c with
      | nil => simp [listLe] at hbc
      | cons z zs =>
        by_cases hxy : x = y
        · subst hxy
          by_cases hxz : x = z
          · subst hxz
            simp only [listLe, beq_self_eq_true, if_true] at hab hbc ⊢
            exact ih ys zs hab hbc
          · have hbc' : x < z := by simpa [listLe, hxz] using hbc
            simp [listLe, hxz, hbc']
        · have hab' : x < y := by simpa [listLe, hxy] using hab
          by_cases hyz : y = z
          · subst hyz
            simp [listLe, hxy, hab']
          · have hbc' : y < z := by simpa [listLe, hyz] using hbc
            have hxz : x < z := lt_trans hab' hbc'
            simp [listLe, ne_of_lt hxz, hxz]

theorem mem_insertSortedBy {α : Type} {le : α → α → Bool} {x a : α} {l : List α} :
    a ∈ insertSortedBy le x l ↔ a = x ∨ a ∈ l := by
  rw [(perm_insertSortedBy le x l).mem_iff]
  exact List.mem_cons

theorem pairwise_insertSortedBy {α : Type} {le : α → α → Bool}
    (htot : ∀ a b, le a b = true ∨ le b a = true)
    (htr : ∀ a b c, le a b = true → le b c = true → le a c = true) :
    ∀ (l : List α) (x : α), List.Pairwise (fun a b => le a b = true) l →
      List.Pairwise (fun a b => le a b = true) (insertSortedBy le x l) := by
  intro l
  induction l with
  | nil =>
    intro x _
    exact List.pairwise_singleton _ _
  | cons y ys ih =>
    intro x hp
    rw [insertSortedBy]
    rcases List.pairwise_cons.mp hp with ⟨hy, hys⟩
    by_cases h : le x y = true
    · rw [if_pos h]
      apply List.pairwise_cons.mpr
      refine ⟨?_, hp⟩
      intro z hz
      rcases List.mem_cons.mp hz with rfl | hz'
      · exact h
      · exact htr x y z h (hy z hz')
    · rw [if_neg h]
      apply List.pairwise_cons.mpr
      refine ⟨?_, ih x hys⟩
      intro z hz
      rcases mem_insertSortedBy.mp hz with rfl | hz'
      · rcases htot z y with h' | h'
        · exact absurd h' h
        · exact h'
      · exact hy z hz'

theorem pairwise_sortBy {α : Type} {le : α → α → Bool}
    (htot : ∀ a b, le a b = true ∨ le b a = true)
    (htr : ∀ a b c, le a b = true → le b c = true → le a c = true) :
    ∀ l : List α, List.Pairwise (fun a b => le a b = true) (sortBy le l) := by
  intro l
  induction l with
  | nil => exact List.Pairwise.nil
  | cons x xs ih =>
    rw [sortBy]
    exact pairwise_insertSortedBy htot htr _ x ih

/-! ## ManifestWriter serialization (`saveModList`, claim C8) -/

/-- The serialized entries of `saveModList`: one `{name, enabled}` pair
per tracked item, sorted ascending by name (`slices.SortFunc` with
`cmp.Compare` on the name). -/
def saveEntries (mods : ModsMap) : List (String × Bool) :=
  sortBy (fun a b => strLe a.1 b.1) (mods.map (fun e => (e.1, e.2.enabled)))

/-! ### Transitively discovered items stay enabled -/

theorem retrieveInto_enabled {fv : String} {fetch : Fetch} {mods : ModsMap} {n m : String}
    (h : ∃ d, mapFind mods m = some d ∧ d.enabled = true) :
    ∃ d, mapFind (retrieveInto fv fetch mods n).1 m = some d ∧ d.enabled = true := by
  obtain ⟨d, hd, he⟩ := h
  by_cases hnm : m = n
  · subst hnm
    unfold retrieveInto
    cases hf : fetch m with
    | error e => exact ⟨d, hd, he⟩
    | ok meta =>
      simp only [hd]
      refine ⟨applyMetadata fv d meta, mapFind_mapInsert_self, ?_⟩
      simpa [applyMetadata] using he
  · unfold retrieveInto
    cases hf : fetch n with
    | error e => exact ⟨d, hd, he⟩
    | ok meta =>
      cases hl : mapFind mods n with
      | none => exact ⟨d, hd, he⟩
      | some d' =>
        dsimp only
        refine ⟨d, ?_, he⟩
        rw [mapFind_mapInsert_ne hnm]
        exact hd

theorem fetchWave_enabled {fv : String} {fetch : Fetch} :
    ∀ (ns : List String) (acc : ModsMap × List String) {m : String},
    (∃ d, mapFind acc.1 m = some d ∧ d.enabled = true) →
    ∃ d, mapFind (fetchWave fv fetch ns acc).1 m = some d ∧ d.enabled = true := by
  intro ns
  induction ns with
  | nil => intro acc m h; exact h
  | cons n rest ih =>
    intro acc m h
    rw [fetchWave]
    exact ih _ (retrieveInto_enabled h)

/-- Names absent before resolution but present after are tracked with
`enabled = true`. -/
def enabledInv (mods0 mods : ModsMap) : Prop :=
  ∀ n, memMods mods n = true → memMods mods0 n = false →
    ∃ d, mapFind mods n = some d ∧ d.enabled = true

theorem enabledInv_resolveStep {fv : String} {fetch : Fetch} {mods0 mods : ModsMap}
    {errs : List String} (hP : enabledInv mods0 mods) :
    enabledInv mods0 (resolveStep fv fetch mods errs).1 := by
  intro n hmem h0
  unfold resolveStep at hmem ⊢
  rw [memMods_fetchWave] at hmem
  by_cases hn : n ∈ sortBy strLe (missingOf mods)
  · apply fetchWave_enabled
    exact ⟨_, mapFind_addMissing_mem hn, rfl⟩
  · have hold : memMods mods n = true := by
      rw [memMods, mapFind_addMissing_not_mem hn] at hmem
      exact hmem
    obtain ⟨d, hd, he⟩ := hP n hold h0
    apply fetchWave_enabled
    refine ⟨d, ?_, he⟩
    rw [mapFind_addMissing_not_mem hn]
    exact hd

theorem enabledInv_resolveLoop {fv : String} {fetch : Fetch} {mods0 : ModsMap} :
    ∀ (fuel : Nat) (mods : ModsMap) (errs : List String) (out : ModsMap × List String),
    resolveLoop fv fetch fuel mods errs = some out →
    enabledInv mods0 mods → enabledInv mods0 out.1 := by
  intro fuel
  induction fuel with
  | zero =>
    intro mods errs out h hP
    rw [resolveLoop] at h
    by_cases hmiss : missingOf mods = []
    · rw [if_pos hmiss] at h
      injection h with h
      rw [← h]
      exact hP
    · rw [if_neg hmiss] at h
      exact Option.noConfusion h
  | succ fuel ih =>
    intro mods errs out h hP
    rw [resolveLoop] at h
    by_cases hmiss : missingOf mods = []
    · rw [if_pos hmiss] at h
      injection h with h
      rw [← h]
      exact hP
    · rw [if_neg hmiss] at h
      exact ih _ _ _ h (enabledInv_resolveStep hP)

/-! ## Claim C8 -/

/-- **C8**: `saveModList` serializes exactly one `{name, enabled}` entry
per item of the working set, sorted ascending by name: the output is a
permutation of the per-item `(name, enabled)` pairs and its names are
pairwise ordered; persisting `{zebra:enabled, alpha:disabled,
middle:enabled}` yields alpha, middle, zebra with flags preserved; and
every item the resolution added beyond the initial working set (a
transitively discovered dependency) is serialized with `enabled = true`. -/
theorem saveEntries_spec :
    (∀ mods : ModsMap,
      List.Pairwise (fun a b : String × Bool => strLe a.1 b.1 = true) (saveEntries mods) ∧
      List.Perm (saveEntries mods) (mods.map (fun e => (e.1, e.2.enabled)))) ∧
    (saveEntries [("zebra", { name := "zebra", title := "zebra", enabled := true }),
                  ("alpha", { name := "alpha", title := "alpha", enabled := false }),
                  ("middle", { name := "middle", title := "middle", enabled := true })] =
      [("alpha", false), ("middle", true), ("zebra", true)]) ∧
    (∀ (fv : String) (fetch : Fetch) (fuel : Nat) (mods0 : ModsMap)
      (out : ModsMap × List String) (n : String),
      resolveMetadata fv fetch fuel mods0 = some out →
      memMods out.1 n = true → memMods mods0 n = false →
      (n, true) ∈ saveEntries out.1) := by
  refine ⟨?_, by decide, ?_⟩
  · intro mods
    constructor
    · apply pairwise_sortBy
      · intro a b
        exact listLe_total a.1.toList b.1.toList
      · intro a b c
        exact listLe_trans a.1.toList b.1.toList c.1.toList
    · exact perm_sortBy _ _
  · intro fv fetch fuel mods0 out n h hmem h0
    unfold resolveMetadata at h
    have hP0 : enabledInv mods0
        (fetchWave fv fetch (sortBy strLe (mods0.map Prod.fst)) (mods0, [])).1 := by
      intro m hm hm0
      rw [memMods_fetchWave] at hm
      rw [hm] at hm0
      exact Bool.noConfusion hm0
    have hP := enabledInv_resolveLoop _ _ _ _ h hP0
    obtain ⟨d, hd, he⟩ := hP n hmem h0
    have hmm : (n, d) ∈ out.1 := mem_of_mapFind_some hd
    have : (n, true) ∈ out.1.map (fun e => (e.1, e.2.enabled)) := by
      rw [List.mem_map]
      exact ⟨(n, d), hmm, by rw [he]⟩
    exact (perm_sortBy _ _).mem_iff.mpr this

def c8Mods : ModsMap := [("a", { name := "a", title := "a", enabled := true })]

def c8Fetch : Fetch := fun n =>
  if n == "a" then
    Except.ok (ModPortalMetadata.mk "Mod A" false
      [ModRelease.mk "/dl/a" "a_1.0.0.zip" (InfoJSON.mk "2.0" ["flib"]) "h" "1.0.0"])
  else if n == "flib" then
    Except.ok (ModPortalMetadata.mk "Flib" false
      [ModRelease.mk "/dl/f" "flib_0.12.0.zip" (InfoJSON.mk "2.0" []) "h2" "0.12.0"])
  else Except.error "no such mod"

/-- Witness for C8: a discovered dependency (`flib`) is serialized with
`enabled = true`. -/
theorem saveEntries_spec_witness :
    ("flib", true) ∈
      saveEntries ((resolveMetadata "2.0" c8Fetch 2 c8Mods).getD ([], [])).1 :=
  saveEntries_spec.2.2 "2.0" c8Fetch 2 c8Mods _ "flib" rfl (by decide) (by decide)

/-! ## Filesystem model

Paths map to entries; an entry is either readable content or a file
whose reads fail (`os.Open` succeeding but `io.Copy` failing). -/

inductive FileEntry where
  | unreadable : FileEntry
  | content : List UInt8 → FileEntry
deriving Repr, DecidableEq

abbrev FS := String → Option FileEntry

def fsWrite (fs : FS) (p : String) (bytes : List UInt8) : FS :=
  fun q => if q = p then some (FileEntry.content bytes) else fs q

def fsRemove (fs : FS) (p : String) : FS :=
  fun q => if q = p then none else fs q

/-- `os.Rename src dst` on an existing source: `dst` receives `src`'s
entry and `src` disappears. -/
def fsRename (fs : FS) (src dst : String) : FS :=
  fun q => if q = dst then fs src else if q = src then none else fs q

/-- `validateSHA1(expectedHash, targetPath)`: `false` when the file
cannot be opened (absent) or read, otherwise the hex-encoded digest of
its content compared with the expected string.  `hash` abstracts
`hex.EncodeToString ∘ sha1.Sum`; the code only compares its output. -/
def validateSHA1 (hash : List UInt8 → String) (fs : FS)
    (expectedHash targetPath : String) : Bool :=
  match fs targetPath with
  | none => false
  | some FileEntry.unreadable => false
  | some (FileEntry.content bytes) => hash bytes == expectedHash

/-- The download decision of `downloadLatest`: fresh installs and version
changes always download; an artifact at the right version is re-validated
and re-downloaded on digest mismatch. -/
def needsDownload (hash : List UInt8 → String) (fs : FS) (data : ModData)
    (latest : ModRelease) (targetPath : String) : Bool :=
  if data.installed then
    if !(data.version == latest.version) then true
    else !(validateSHA1 hash fs latest.sha1 targetPath)
  else true

/-! ## Claim C10 -/

/-- **C10**: `validateSHA1` is total: it returns `false` on a missing or
unreadable file, and returns `true` exactly when the file has readable
content whose digest equals the expected string; consequently a missing
or unreadable existing artifact makes `downloadLatest` re-download rather
than fail. -/
theorem validateSHA1_total (hash : List UInt8 → String) (fs : FS)
    (expectedHash targetPath : String) :
    (fs targetPath = none → validateSHA1 hash fs expectedHash targetPath = false) ∧
    (fs targetPath = some FileEntry.unreadable →
      validateSHA1 hash fs expectedHash targetPath = false) ∧
    (validateSHA1 hash fs expectedHash targetPath = true ↔
      ∃ bytes, fs targetPath = some (FileEntry.content bytes) ∧
        hash bytes = expectedHash) ∧
    (∀ (data : ModData) (latest : ModRelease),
      fs targetPath = none ∨ fs targetPath = some FileEntry.unreadable →
      needsDownload hash fs data latest targetPath = true) := by
  refine ⟨?_, ?_, ?_, ?_⟩
  · intro h
    simp [validateSHA1, h]
  · intro h
    simp [validateSHA1, h]
  · constructor
    · intro h
      cases hf : fs targetPath with
      | none => rw [validateSHA1, hf] at h; exact Bool.noConfusion h
      | some entry =>
        cases entry with
        | unreadable => rw [validateSHA1, hf] at h; exact Bool.noConfusion h
        | content bytes =>
          rw [validateSHA1, hf] at h
          exact ⟨bytes, rfl, by simpa using h⟩
    · rintro ⟨bytes, hb, hh⟩
      rw [validateSHA1, hb]
      simpa using hh
  · intro data latest h
    have hv : validateSHA1 hash fs latest.sha1 targetPath = false := by
      rcases h with h | h
      · simp [validateSHA1, h]
      · simp [validateSHA1, h]
    unfold needsDownload
    by_cases hi : data.installed = true
    · rw [if_pos hi]
      by_cases hver : (data.version == latest.version) = true
      · simp [hver, hv]
      · simp [hver]
    · rw [if_neg hi]

/-- Witness for C10: on an empty filesystem validation fails and a
download is required. -/
theorem validateSHA1_total_witness :
    validateSHA1 (fun _ => "d") (fun _ => none) "d" "mods/x_1.0.0.zip" = false :=
  (validateSHA1_total (fun _ => "d") (fun _ => none) "d" "mods/x_1.0.0.zip").1 rfl

/-! ## DownloadPipeline (`downloadFile`, claim C5) -/

inductive StreamResult where
  | complete : List UInt8 → StreamResult
  | interrupted : StreamResult
deriving Repr, DecidableEq

inductive HTTPResult where
  | failure : String → HTTPResult
  | response : Nat → StreamResult → HTTPResult
deriving Repr, DecidableEq

/-- `downloadFile`: an HTTP failure or a non-200 status fail before any
file is touched.  Otherwise the body streams into `targetPath + ".tmp"`
(an interrupted copy leaves the temp file deleted again); on completion
the temp file's digest is validated — a mismatch removes the temp file
and fails, a match atomically renames the temp file over `targetPath`. -/
def downloadFile (hash : List UInt8 → String) (fs : FS) (r : HTTPResult)
    (targetPath expectedHash : String) : FS × Except String Unit :=
  match r with
  | HTTPResult.failure e => (fs, Except.error ("executing download: " ++ e))
  | HTTPResult.response status body =>
    if !(status == 200) then (fs, Except.error "download returned non-200 status")
    else
      match body with
      | StreamResult.interrupted =>
        (fsRemove fs (targetPath ++ ".tmp"), Except.error "writing download data")
      | StreamResult.complete bytes =>
        let fs1 := fsWrite fs (targetPath ++ ".tmp") bytes
        if validateSHA1 hash fs1 expectedHash (targetPath ++ ".tmp") then
          (fsRename fs1 (targetPath ++ ".tmp") targetPath, Except.ok ())
        else
          (fsRemove fs1 (targetPath ++ ".tmp"),
            Except.error ("SHA-1 validation failed for " ++ (targetPath ++ ".tmp")))

theorem ne_append_tmp (s : String) : s ≠ s ++ ".tmp" := by
  intro h
  have hl := congrArg String.length h
  rw [String.length_append] at hl
  have h4 : String.length ".tmp" = 4 := rfl
  rw [h4] at hl
  omega

/-! ## Claim C5 -/

/-- **C5**: the response body is streamed into a temporary file; only a
digest match installs anything at the final target path, by a rename of
the fully verified temp file; a mismatch deletes the temp file and fails
the item; and any failing download changes nothing outside the temp file
— in particular a previously installed artifact (any other path, or the
target itself) stays intact. -/
theorem downloadFile_safe (hash : List UInt8 → String) (fs : FS) (r : HTTPResult)
    (targetPath expectedHash : String) :
    (∀ p, p ≠ targetPath ++ ".tmp" → p ≠ targetPath →
      (downloadFile hash fs r targetPath expectedHash).1 p = fs p) ∧
    ((downloadFile hash fs r targetPath expectedHash).2 ≠ Except.ok () →
      ∀ p, p ≠ targetPath ++ ".tmp" →
        (downloadFile hash fs r targetPath expectedHash).1 p = fs p) ∧
    ((downloadFile hash fs r targetPath expectedHash).1 targetPath ≠ fs targetPath →
      ∃ bytes, r = HTTPResult.response 200 (StreamResult.complete bytes) ∧
        hash bytes = expectedHash ∧
        (downloadFile hash fs r targetPath expectedHash).1 targetPath =
          some (FileEntry.content bytes) ∧
        (downloadFile hash fs r targetPath expectedHash).2 = Except.ok ()) ∧
    (∀ bytes, r = HTTPResult.response 200 (StreamResult.complete bytes) →
      hash bytes ≠ expectedHash →
      (downloadFile hash fs r targetPath expectedHash).1 (targetPath ++ ".tmp") = none ∧
      (downloadFile hash fs r targetPath expectedHash).2 =
        Except.error ("SHA-1 validation failed for " ++ (targetPath ++ ".tmp"))) ∧
    (∀ bytes, r = HTTPResult.response 200 (StreamResult.complete bytes) →
      hash bytes = expectedHash →
      (downloadFile hash fs r targetPath expectedHash).1 targetPath =
        some (FileEntry.content bytes) ∧
      (downloadFile hash fs r targetPath expectedHash).2 = Except.ok ()) := by
  have htmpne : targetPath ≠ targetPath ++ ".tmp" := ne_append_tmp targetPath
  cases r with
  | failure e =>
    refine ⟨fun p _ _ => rfl, fun _ p _ => rfl, fun h => absurd rfl h, ?_, ?_⟩
    · intro bytes h
      exact HTTPResult.noConfusion h
    · intro bytes h
      exact HTTPResult.noConfusion h
  | response status body =>
    by_cases hst : (status == 200) = true
    · have hst' : status = 200 := by simpa using hst
      subst hst'
      cases body with
      | interrupted =>
        have hred : downloadFile hash fs (HTTPResult.response 200 StreamResult.interrupted)
            targetPath expectedHash =
            (fsRemove fs (targetPath ++ ".tmp"), Except.error "writing download data") := rfl
        rw [hred]
        refine ⟨?_, ?_, ?_, ?_, ?_⟩
        · intro p hp _
          simp [fsRemove, hp]
        · intro _ p hp
          simp [fsRemove, hp]
        · intro h
          exact absurd (by simp [fsRemove, htmpne]) h
        · intro bytes h
          injection h with _ h
          exact StreamResult.noConfusion h
        · intro bytes h
          injection h with _ h
          exact StreamResult.noConfusion h
      | complete bytes =>
        have hfs1 : (fsWrite fs (targetPath ++ ".tmp") bytes) (targetPath ++ ".tmp") =
            some (FileEntry.content bytes) := by
          simp [fsWrite]
        by_cases hv : hash bytes = expectedHash
        · have hval : validateSHA1 hash (fsWrite fs (targetPath ++ ".tmp") bytes)
              expectedHash (targetPath ++ ".tmp") = true := by
            rw [validateSHA1, hfs1]
            simpa using hv
          have hred : downloadFile hash fs
              (HTTPResult.response 200 (StreamResult.complete bytes)) targetPath expectedHash =
              (fsRename (fsWrite fs (targetPath ++ ".tmp") bytes) (targetPath ++ ".tmp")
                targetPath, Except.ok ()) := by
            simp only [downloadFile]
            rw [if_neg (by simp), if_pos hval]
          rw [hred]
          refine ⟨?_, ?_, ?_, ?_, ?_⟩
          · intro p hp hpt
            simp [fsRename, fsWrite, hp, hpt]
          · intro hok
            exact absurd rfl hok
          · intro _
            exact ⟨bytes, rfl, hv, by simp [fsRename, fsWrite], rfl⟩
          · intro bytes' hb hne
            injection hb with _ hb
            injection hb with hb
            rw [← hb] at hne
            exact absurd hv hne
          · intro bytes' hb _
            injection hb with _ hb
            injection hb with hb
            subst hb
            exact ⟨by simp [fsRename, fsWrite], rfl⟩
        · have hval : validateSHA1 hash (fsWrite fs (targetPath ++ ".tmp") bytes)
              expectedHash (targetPath ++ ".tmp") = false := by
            rw [validateSHA1, hfs1]
            simpa using hv
          have hred : downloadFile hash fs
              (HTTPResult.response 200 (StreamResult.complete bytes)) targetPath expectedHash =
              (fsRemove (fsWrite fs (targetPath ++ ".tmp") bytes) (targetPath ++ ".tmp"),
                Except.error ("SHA-1 validation failed for " ++ (targetPath ++ ".tmp"))) := by
            simp only [downloadFile]
            rw [if_neg (by simp), if_neg (by simp [hval])]
          rw [hred]
          refine ⟨?_, ?_, ?_, ?_, ?_⟩
          · intro p hp _
            simp [fsRemove, fsWrite, hp]
          · intro _ p hp
            simp [fsRemove, fsWrite, hp]
          · intro h
            exact absurd (by simp [fsRemove, fsWrite, htmpne]) h
          · intro bytes' hb _
            injection hb with _ hb
            injection hb with hb
            subst hb
            exact ⟨by simp [fsRemove], rfl⟩
          · intro bytes' hb he
            injection hb with _ hb
            injection hb with hb
            rw [← hb] at he
            exact absurd he hv
    · have hred : downloadFile hash fs (HTTPResult.response status body)
          targetPath expectedHash =
          (fs, Except.error "download returned non-200 status") := by
        simp only [downloadFile]
        rw [if_pos (by simpa using hst)]
      rw [hred]
      refine ⟨fun p _ _ => rfl, fun _ p _ => rfl, fun h => absurd rfl h, ?_, ?_⟩
      · intro bytes h
        injection h with h1 h2
        rw [h1] at hst
        simp at hst
      · intro bytes h
        injection h with h1 h2
        rw [h1] at hst
        simp at hst

/-- Witness for C5: a digest mismatch on a completed stream deletes the
temp file (the target path, holding a previous version, is untouched by
the failure clause). -/
theorem downloadFile_safe_witness :
    (downloadFile (fun _ => "deadbeef") (fun _ => none)
      (HTTPResult.response 200 (StreamResult.complete [1, 2]))
      "mods/x_1.0.0.zip" "cafe").1 ("mods/x_1.0.0.zip" ++ ".tmp") = none :=
  ((downloadFile_safe (fun _ => "deadbeef") (fun _ => none)
      (HTTPResult.response 200 (StreamResult.complete [1, 2]))
      "mods/x_1.0.0.zip" "cafe").2.2.2.1 [1, 2] rfl (by decide)).1

/-! ## ManifestWriter filesystem behavior (`saveModList`, claim C7) -/

inductive FSOp where
  | rename : String → String → FSOp
  | write : String → List UInt8 → FSOp
deriving Repr, DecidableEq

/-- `os.Rename` fails (and `saveModList` at most warns) when the source
is absent, so an absent source is a no-op here. -/
def applyOp (fs : FS) : FSOp → FS
  | FSOp.rename src dst => if (fs src).isSome then fsRename fs src dst else fs
  | FSOp.write p bytes => fsWrite fs p bytes

def applyOps (fs : FS) : List FSOp → FS
  | [] => fs
  | op :: ops => applyOps (applyOp fs op) ops

/-- The filesystem operations of `saveModList` in program order:
best-effort backup rename of the previous manifest to the timestamped
backup path, write of the serialized bytes to `mod-list.json.tmp` in the
same directory, atomic rename of the temp file over the canonical path. -/
def saveModListOps (marshal : List (String × Bool) → List UInt8) (mods : ModsMap)
    (modListPath backupPath : String) : List FSOp :=
  [FSOp.rename modListPath backupPath,
   FSOp.write (modListPath ++ ".tmp") (marshal (saveEntries mods)),
   FSOp.rename (modListPath ++ ".tmp") modListPath]

/-- `saveModList` as a filesystem transformer.  `marshal` abstracts
`json.MarshalIndent` of the sorted entry list; the backup path abstracts
the timestamped name computed from the current time. -/
def saveModList (marshal : List (String × Bool) → List UInt8) (mods : ModsMap)
    (fs : FS) (modListPath backupPath : String) : FS :=
  applyOps fs (saveModListOps marshal mods modListPath backupPath)

/-! ## Claim C7 -/

/-- **C7**: `saveModList` writes the new manifest content to a temporary
file in the same directory (`modListPath ++ ".tmp"`) and renames it over
the canonical path: after the call the canonical path holds exactly the
complete serialized content, and after every prefix of the operation
sequence the canonical path holds the old manifest, nothing, or the
complete new content — never a partial write, whatever state a reader
observes. -/
theorem saveModList_atomic (marshal : List (String × Bool) → List UInt8)
    (mods : ModsMap) (fs : FS) (modListPath backupPath : String) :
    (saveModList marshal mods fs modListPath backupPath) modListPath =
      some (FileEntry.content (marshal (saveEntries mods))) ∧
    ∀ k : Nat,
      (applyOps fs ((saveModListOps marshal mods modListPath backupPath).take k))
          modListPath = fs modListPath ∨
      (applyOps fs ((saveModListOps marshal mods modListPath backupPath).take k))
          modListPath = none ∨
      (applyOps fs ((saveModListOps marshal mods modListPath backupPath).take k))
          modListPath = some (FileEntry.content (marshal (saveEntries mods))) := by
  have htmpne : modListPath ≠ modListPath ++ ".tmp" := ne_append_tmp modListPath
  have hstate1 :
      (applyOp fs (FSOp.rename modListPath backupPath)) modListPath = fs modListPath ∨
      (applyOp fs (FSOp.rename modListPath backupPath)) modListPath = none := by
    rw [applyOp]
    by_cases hs : (fs modListPath).isSome = true
    · rw [if_pos hs]
      by_cases hbp : modListPath = backupPath
      · left
        simp [fsRename, hbp]
      · right
        simp [fsRename, hbp]
    · left
      rw [if_neg hs]
  have hstate2 : ∀ fs' : FS,
      (applyOp fs' (FSOp.write (modListPath ++ ".tmp") (marshal (saveEntries mods))))
        modListPath = fs' modListPath := by
    intro fs'
    rw [applyOp]
    simp [fsWrite, htmpne]
  have hstate3 : ∀ fs' : FS,
      fs' (modListPath ++ ".tmp") = some (FileEntry.content (marshal (saveEntries mods))) →
      (applyOp fs' (FSOp.rename (modListPath ++ ".tmp") modListPath)) modListPath =
        some (FileEntry.content (marshal (saveEntries mods))) := by
    intro fs' h
    rw [applyOp, if_pos (by rw [h]; rfl)]
    simp [fsRename, h]
  have htmp2 : ∀ fs' : FS,
      (applyOp fs' (FSOp.write (modListPath ++ ".tmp") (marshal (saveEntries mods))))
        (modListPath ++ ".tmp") = some (FileEntry.content (marshal (saveEntries mods))) := by
    intro fs'
    rw [applyOp]
    simp [fsWrite]
  constructor
  · simp only [saveModList, saveModListOps, applyOps]
    exact hstate3 _ (htmp2 _)
  · intro k
    match k with
    | 0 => left; rfl
    | 1 =>
      simp only [saveModListOps, List.take, applyOps]
      rcases hstate1 with h | h
      · left; exact h
      · right; left; exact h
    | 2 =>
      simp only [saveModListOps, List.take, applyOps]
      rw [hstate2]
      rcases hstate1 with h | h
      · left; exact h
      · right; left; exact h
    | (n + 3) =>
      right; right
      simp only [saveModListOps, List.take, List.take_nil, applyOps]
      exact hstate3 _ (htmp2 _)

/-! ## Pruner (`pruneOld`, claim C6) -/

/-- Split a character list on a separator (`strings.Split` semantics:
`""` yields one empty piece, separators delimit possibly empty pieces). -/
def splitChar (sep : Char) : List Char → List (List Char)
  | [] => [[]]
  | c :: cs =>
    if c == sep then [] :: splitChar sep cs
    else
      match splitChar sep cs with
      | [] => [[c]]
      | t :: ts => (c :: t) :: ts

/-- Element processing of `filepath.Clean` (unix separator): drop empty
and `.` elements; `..` cancels the preceding element, chains after other
leading `..` in relative paths, and is dropped at the root of rooted
paths. -/
def cleanElems (rooted : Bool) : List (List Char) → List (List Char) → List (List Char)
  | acc, [] => acc.reverse
  | acc, e :: rest =>
    if e.isEmpty || e == ['.'] then cleanElems rooted acc rest
    else if e == ['.', '.'] then
      match acc with
      | top :: acc' =>
        if top == ['.', '.'] then cleanElems rooted (e :: top :: acc') rest
        else cleanElems rooted acc' rest
      | [] => if rooted then cleanElems rooted [] rest else cleanElems rooted [e] rest
    else cleanElems rooted (e :: acc) rest

def joinSlash : List (List Char) → List Char
  | [] => []
  | [e] => e
  | e :: rest => e ++ '/' :: joinSlash rest

/-- `filepath.Clean` for the unix separator: the lexically shortest
equivalent path. -/
def filepathClean (path : String) : String :=
  if path == "" then "."
  else
    let cs := path.toList
    let rooted :=
      match cs with
      | '/' :: _ => true
      | _ => false
    let elems := cleanElems rooted [] (splitChar '/' cs)
    if rooted then ('/' :: joinSlash elems).asString
    else if elems.isEmpty then "." else (joinSlash elems).asString

/-- `filepath.Base` for the unix separator: strip trailing separators,
then keep everything after the last separator. -/
def filepathBase (path : String) : String :=
  if path == "" then "."
  else
    let stripped := (path.toList.reverse.dropWhile (fun c => c == '/')).reverse
    if stripped.isEmpty then "/"
    else ((stripped.reverse.takeWhile (fun c => !(c == '/'))).reverse).asString

/-- The per-mod pattern of `pruneOld`,
`^<QuoteMeta mod>_(\d+\.\d+\.\d+)\.zip$`, applied to a file name: the mod
name is a literal prefix, then an underscore, a version triple and the
`.zip` suffix, anchored on both sides. -/
def modZipVersion (mod fname : String) : Option String :=
  let pre := mod.toList ++ ['_']
  let cs := fname.toList
  if listIsPre pre cs then
    match (cs.drop pre.length).reverse with
    | 'p' :: 'i' :: 'z' :: '.' :: vrev =>
      let v := vrev.reverse
      if isVersionTriple v then some v.asString else none
    | _ => none
  else none

/-- `os.Remove` of one file name in the modelled directory. -/
def removeFileEntry (dir : List DirEntry) (fname : String) : List DirEntry :=
  dir.filter (fun e => !(e.name == fname))

/-- The removal loop of `pruneOld`: iterate over a snapshot of the
listing, deleting every non-directory whose name matches the pattern at a
version other than the latest. -/
def pruneLoop (mod latestVersion : String) : List DirEntry → List DirEntry → List DirEntry
  | [], dir => dir
  | f :: rest, dir =>
    if f.isDir then pruneLoop mod latestVersion rest dir
    else
      match modZipVersion mod f.name with
      | some v =>
        if !(v == latestVersion) then
          pruneLoop mod latestVersion rest (removeFileEntry dir f.name)
        else pruneLoop mod latestVersion rest dir
      | none => pruneLoop mod latestVersion rest dir

/-- `pruneOld` for a mod whose selected release is `rel`: a no-op unless
the latest release's (sanitized) artifact file exists in the directory;
otherwise stale versions of this mod are removed. -/
def pruneOld (mod : String) (rel : ModRelease) (dir : List DirEntry) : List DirEntry :=
  let safeFileName := filepathBase (filepathClean rel.fileName)
  if dir.any (fun e => e.name == safeFileName) then
    pruneLoop mod rel.version dir dir
  else dir

/-- A directory entry `pruneOld` deletes: a file (not a directory) whose
name matches the mod's pattern at a version other than the latest. -/
def pruneRemovable (mod latestVersion : String) (f : DirEntry) : Bool :=
  !f.isDir &&
    (match modZipVersion mod f.name with
     | some v => !(v == latestVersion)
     | none => false)

theorem pruneLoop_filter (mod latestVersion : String) :
    ∀ (snapshot dir : List DirEntry),
    pruneLoop mod latestVersion snapshot dir =
      dir.filter (fun e =>
        !(snapshot.any (fun f => pruneRemovable mod latestVersion f && (f.name == e.name)))) := by
  intro snapshot
  induction snapshot with
  | nil =>
    intro dir
    simp [pruneLoop]
  | cons f rest ih =>
    intro dir
    rw [pruneLoop]
    by_cases hd : f.isDir = true
    · rw [if_pos hd, ih]
      apply List.filter_congr
      intro e _
      simp [pruneRemovable, hd]
    · rw [if_neg hd]
      have hd' : f.isDir = false := by simpa using hd
      cases hz : modZipVersion mod f.name with
      | none =>
        dsimp only
        rw [ih]
        apply List.filter_congr
        intro e _
        simp [pruneRemovable, hz]
      | some v =>
        dsimp only
        by_cases hv : (v == latestVersion) = true
        · rw [if_neg (by simp [hv]), ih]
          apply List.filter_congr
          intro e _
          simp [pruneRemovable, hz, hd', hv]
        · have hv' : (v == latestVersion) = false := by simpa using hv
          rw [if_pos (by simp [hv']), ih]
          unfold removeFileEntry
          rw [List.filter_filter]
          apply List.filter_congr
          intro e _
          simp only [List.any_cons, pruneRemovable, hz, hd', hv', Bool.not_false,
            Bool.true_and, Bool.not_or, Bool.and_comm]
          have hcomm : (e.name == f.name) = (f.name == e.name) := by
            by_cases hne : e.name = f.name
            · simp [hne]
            · simp [hne, Ne.symm hne]
          rw [hcomm]

theorem nodup_name_eq {dir : List DirEntry} (hnd : (dir.map DirEntry.name).Nodup)
    {e f : DirEntry} (he : e ∈ dir) (hf : f ∈ dir) (h : f.name = e.name) : f = e := by
  have := List.inj_on_of_nodup_map hnd
  exact this hf he h

/-! ## Claim C6 -/

/-- **C6**: pruning for an item is a strict no-op whenever the item's
latest-version artifact file (its sanitized file name) is absent from the
directory; when it is present, pruning removes exactly the non-directory
entries whose name matches `<name>_<major>.<minor>.<patch>.zip` for this
item at a version other than the latest — every other entry (other
items' artifacts, non-matching files, directories) is left in place, in
order. -/
theorem pruneOld_spec (mod : String) (rel : ModRelease) (dir : List DirEntry) :
    ((∀ e ∈ dir, e.name ≠ filepathBase (filepathClean rel.fileName)) →
      pruneOld mod rel dir = dir) ∧
    ((dir.map DirEntry.name).Nodup →
      (∃ e ∈ dir, e.name = filepathBase (filepathClean rel.fileName)) →
      pruneOld mod rel dir = dir.filter (fun e => !(pruneRemovable mod rel.version e))) := by
  constructor
  · intro habsent
    unfold pruneOld
    rw [if_neg]
    intro hany
    rw [List.any_eq_true] at hany
    obtain ⟨e, he, hname⟩ := hany
    exact habsent e he (by simpa using hname)
  · intro hnd hpresent
    unfold pruneOld
    rw [if_pos, pruneLoop_filter]
    · apply List.filter_congr
      intro e he
      by_cases hr : pruneRemovable mod rel.version e = true
      · have : dir.any (fun f => pruneRemovable mod rel.version f && (f.name == e.name)) =
            true := by
          rw [List.any_eq_true]
          exact ⟨e, he, by simp [hr]⟩
        rw [this, hr]
      · have hr' : pruneRemovable mod rel.version e = false := by simpa using hr
        have : dir.any (fun f => pruneRemovable mod rel.version f && (f.name == e.name)) =
            false := by
          rw [← Bool.not_eq_true, List.any_eq_true]
          rintro ⟨f, hf, hcond⟩
          rw [Bool.and_eq_true] at hcond
          have hfe : f = e := nodup_name_eq hnd he hf (by simpa using hcond.2)
          rw [hfe] at hcond
          rw [hcond.1] at hr'
          exact Bool.noConfusion hr'
        rw [this, hr']
    · rw [List.any_eq_true]
      obtain ⟨e, he, hname⟩ := hpresent
      exact ⟨e, he, by simpa using hname⟩

def c6Rel : ModRelease :=
  ModRelease.mk "/dl/x" "x_2.2.12.zip" (InfoJSON.mk "2.0" []) "h" "2.2.12"

def c6Dir : List DirEntry :=
  [DirEntry.mk "x_2.1.0.zip" false, DirEntry.mk "x_2.1.5.zip" false,
   DirEntry.mk "x_2.2.12.zip" false, DirEntry.mk "y_0.4.15.zip" false]

def c6DirAbsent : List DirEntry :=
  [DirEntry.mk "x_2.1.0.zip" false, DirEntry.mk "x_2.1.5.zip" false,
   DirEntry.mk "y_0.4.15.zip" false]

/-- Witness for C6: the spec's example — with `x_2.2.12.zip` present,
only the two stale `x` versions go and `y_0.4.15.zip` stays; with it
absent, nothing is removed. -/
theorem pruneOld_spec_witness :
    pruneOld "x" c6Rel c6Dir =
      [DirEntry.mk "x_2.2.12.zip" false, DirEntry.mk "y_0.4.15.zip" false] ∧
    pruneOld "x" c6Rel c6DirAbsent = c6DirAbsent := by
  constructor
  · rw [(pruneOld_spec "x" c6Rel c6Dir).2 (by decide)
      ⟨DirEntry.mk "x_2.2.12.zip" false, by decide, by decide⟩]
    decide
  · exact (pruneOld_spec "x" c6Rel c6DirAbsent).1 (by decide)

end FactorioUpdater
